import Mathlib

/-!
# Verification of the CELL coordinate codec (sashite/cell.go)

Shallow embedding of the CELL parsing/validation/encoding engine.
Go strings are modelled as lists of bytes (`List Nat`, each entry the byte
value); Go `int` is modelled as `Int` (the arithmetic performed by the
bounded codec on accepted inputs stays far below 2^63, so no wrap-around
is reachable there; where Go's wrap-around *is* reachable — the slice API's
`decodeSegment` — it is modelled explicitly with `wrap64`).

Three API variants live in the repository and are embedded side by side:

* the bounded API (`parse.go`, `format.go`, `coordinate.go`):
  `validate`, `parse`, `format`, `NewCoordinate`, limits
  `MaxDimensions = 3`, `MaxIndex = 255`, `MaxStringLen = 7`;
* the slice API (`cell.go`): `sliceParse`, `sliceAppendParse`,
  `sliceFormat`, `writeAlpha`;
* the components variant (regex based `Valid`, `lettersToIndex`,
  `indexToLetters`).

Loops that consume a run per iteration are written with an explicit fuel
argument (the Go loops terminate because every iteration either consumes at
least one byte or returns); the callers pass the input length as fuel, which
is always sufficient, and every lemma about a loop carries the corresponding
`length ≤ fuel` hypothesis.
-/

namespace Cell

/-! ## Character classification (parse.go)

`isLower(c) = c >= 'a' && c <= 'z'`, etc., on bytes. -/

def isLower (c : Nat) : Bool := 97 ≤ c && c ≤ 122

def isUpper (c : Nat) : Bool := 65 ≤ c && c ≤ 90

def isDigit (c : Nat) : Bool := 48 ≤ c && c ≤ 57

/-! ## Decoding helpers (parse.go)

`decodeLower` converts bijective base-26 lowercase to a 0-indexed integer:
`val = 0; for each byte: val = val*26 + int(c-'a') + 1; return val - 1`.
`decodeUpper` is the same with base `'A'`; `decodeDigit` uses
`val = val*10 + int(c-'0'); return val - 1`. -/

def decodeLower (s : List Nat) : Int :=
  (s.foldl (fun (v : Int) (c : Nat) => v * 26 + ((c : Int) - 97) + 1) 0) - 1

def decodeUpper (s : List Nat) : Int :=
  (s.foldl (fun (v : Int) (c : Nat) => v * 26 + ((c : Int) - 65) + 1) 0) - 1

def decodeDigit (s : List Nat) : Int :=
  (s.foldl (fun (v : Int) (c : Nat) => v * 10 + ((c : Int) - 48)) 0) - 1

/-! ## Implementation constraints (coordinate.go) -/

def MaxDimensions : Nat := 3

def MaxIndex : Nat := 255

def MaxStringLen : Nat := 7

/-! ## Error taxonomy (errors file) -/

inductive CellErr where
  | emptyInput
  | inputTooLong
  | invalidStart
  | unexpectedChar
  | leadingZero
  | tooManyDims
  | indexOutOfRange
deriving DecidableEq, Repr

/-! ## validate (parse.go)

The Go loop `for cursor < n { ... }` consumes one maximal run per iteration
(via the greedy inner loops, modelled with `takeWhile`/`dropWhile`) and
advances `dim`.  An iteration whose run is empty returns an error, so each
recursive call consumes at least one byte: fuel `s.length` is sufficient.

One reordering note: in the source's mode-0 branch the range check
`decodeLower(s[start:cursor]) > MaxIndex` textually precedes the post-switch
empty-run check, but on an empty run `decodeLower("") = -1 ≤ MaxIndex`, so an
empty mode-0 run always falls through to `ErrUnexpectedChar`; checking the
class of the head byte first (as done here, which also makes the recursion
well-founded) yields the same function. -/

def validateLoop : Nat → List Nat → Nat → Option CellErr
  | 0, s, _ => if s.isEmpty then none else some .unexpectedChar
  | _ + 1, [], _ => none
  | fuel + 1, c :: rest, dim =>
    if MaxDimensions ≤ dim then some .tooManyDims
    else
      match dim % 3 with
      | 0 =>
        if isLower c then
          if (MaxIndex : Int) < decodeLower (c :: rest.takeWhile isLower) then
            some .indexOutOfRange
          else validateLoop fuel (rest.dropWhile isLower) (dim + 1)
        else some .unexpectedChar
      | 1 =>
        if c = 48 then some .leadingZero
        else if isDigit c then
          if (MaxIndex : Int) < decodeDigit (c :: rest.takeWhile isDigit) then
            some .indexOutOfRange
          else validateLoop fuel (rest.dropWhile isDigit) (dim + 1)
        else some .unexpectedChar
      | _ =>
        if isUpper c then
          if (MaxIndex : Int) < decodeUpper (c :: rest.takeWhile isUpper) then
            some .indexOutOfRange
          else validateLoop fuel (rest.dropWhile isUpper) (dim + 1)
        else some .unexpectedChar

def validate (s : List Nat) : Option CellErr :=
  match s with
  | [] => some .emptyInput
  | c :: _ =>
    if MaxStringLen < s.length then some .inputTooLong
    else if isLower c then validateLoop s.length s 0
    else some .invalidStart

/-! ## Coordinate (coordinate.go)

`indices` models the fixed `[3]uint8` array (always length 3, entries are
byte values, unused slots zero as in the zero-initialised Go struct);
`dims` is the `uint8` dimension count. -/

structure Coordinate where
  indices : List Nat
  dims : Nat
deriving DecidableEq, Repr

/-- `NewCoordinate` (coordinate.go) panics (here: `none`) when the argument
list is empty or longer than `MaxDimensions`.  Its variadic parameter is
typed `...uint8`, so a call site can never supply an element above 255; that
type-level guard is modelled as the explicit `MaxIndex` test. -/
def NewCoordinate (indices : List Nat) : Option Coordinate :=
  if indices.length = 0 then none
  else if MaxDimensions < indices.length then none
  else if indices.any (fun v => MaxIndex < v) then none
  else some ⟨indices ++ List.replicate (3 - indices.length) 0, indices.length⟩

/-! ## parse (parse.go)

`parse` assumes a validated string.  The Go loop writes
`c.indices[dim] = uint8(decode...(run))` — the `uint8` conversion is the
truncation `% 256` — and finally stores `c.dims = uint8(dim)`.  On a
validated string every run is nonempty and `dim` never reaches 3 at a write,
which is exactly the region where this embedding agrees with the Go code
(on a *non*-validated string the Go loop would index out of bounds and
panic; here the loop simply stops when the head byte does not belong to the
expected class). -/

def parseLoop : Nat → List Nat → Nat → List Nat → List Nat × Nat
  | 0, _, dim, arr => (arr, dim)
  | _ + 1, [], dim, arr => (arr, dim)
  | fuel + 1, c :: rest, dim, arr =>
    match dim % 3 with
    | 0 =>
      if isLower c then
        parseLoop fuel (rest.dropWhile isLower) (dim + 1)
          (arr.set dim ((decodeLower (c :: rest.takeWhile isLower)) % 256).toNat)
      else (arr, dim)
    | 1 =>
      if isDigit c then
        parseLoop fuel (rest.dropWhile isDigit) (dim + 1)
          (arr.set dim ((decodeDigit (c :: rest.takeWhile isDigit)) % 256).toNat)
      else (arr, dim)
    | _ =>
      if isUpper c then
        parseLoop fuel (rest.dropWhile isUpper) (dim + 1)
          (arr.set dim ((decodeUpper (c :: rest.takeWhile isUpper)) % 256).toNat)
      else (arr, dim)

def parse (s : List Nat) : Coordinate :=
  let p := parseLoop s.length s 0 [0, 0, 0]
  ⟨p.1, p.2 % 256⟩

/-- `Parse` (parse.go): validate, then parse; an error yields no
coordinate. -/
def Parse (s : List Nat) : Option Coordinate :=
  match validate s with
  | some _ => none
  | none => some (parse s)

/-! ## Encoding (format.go)

`encodeLower` renders `val+1` in bijective base 26, emitting the digits most
significant first; the Go loop computes, from the least significant end,
`rem := (v-1) % 26; buf[i] = 'a'+rem; v = (v-1)/26` until `v = 0`, writing
into a buffer of size `alphaLength(val)` — for the `uint8` argument range
the digit count always equals `alphaLength(val)`, so the function is the
plain digit loop below.  `encodeDigit` renders `val+1` in decimal the same
way.  Fuel `v` bounds the digit count. -/

def encodeAlphaAux (base : Nat) : Nat → Nat → List Nat → List Nat
  | 0, _, acc => acc
  | fuel + 1, v, acc =>
    if v = 0 then acc
    else encodeAlphaAux base fuel ((v - 1) / 26) ((base + (v - 1) % 26) :: acc)

def encodeLower (val : Nat) : List Nat := encodeAlphaAux 97 (val + 1) (val + 1) []

def encodeUpper (val : Nat) : List Nat := encodeAlphaAux 65 (val + 1) (val + 1) []

def encodeDigitAux : Nat → Nat → List Nat → List Nat
  | 0, _, acc => acc
  | fuel + 1, v, acc =>
    if v = 0 then acc
    else encodeDigitAux fuel (v / 10) ((48 + v % 10) :: acc)

def encodeDigit (val : Nat) : List Nat := encodeDigitAux (val + 1) (val + 1) []

/-- The per-mode encoder dispatch of `format` (mode `i % 3`). -/
def encDim (m val : Nat) : List Nat :=
  match m with
  | 0 => encodeLower val
  | 1 => encodeDigit val
  | _ => encodeUpper val

/-- The `format` loop: for `i = from, …, from+count-1` append the encoding of
`indices[i]` in the character class of dimension `i`. -/
def formatRange (arr : List Nat) : Nat → Nat → List Nat
  | _, 0 => []
  | i, k + 1 => encDim (i % 3) (arr.getD i 0) ++ formatRange arr (i + 1) k

/-- `format` (format.go): concatenate the per-dimension encodings of
`indices[0 .. dims-1]`. -/
def format (c : Coordinate) : List Nat := formatRange c.indices 0 c.dims

/-! ## Numeral-codec arithmetic

Natural-number views of the decode folds (`decode…` subtracts 1 at the end
and works in `Int`; on runs of the right character class the fold value is
the positive natural computed here). -/

/-- The fold of `decodeLower`/`decodeUpper` (base byte `b` = 97 or 65),
before the final `- 1`: the bijective base-26 value of the run. -/
def decAlphaVal (b : Nat) (s : List Nat) : Nat :=
  s.foldl (fun v c => v * 26 + (c + 1 - b)) 0

/-- The fold of `decodeDigit`, before the final `- 1`: the decimal value. -/
def decDigitVal (s : List Nat) : Nat :=
  s.foldl (fun v c => v * 10 + (c - 48)) 0

theorem isLower_iff {c : Nat} : isLower c = true ↔ 97 ≤ c ∧ c ≤ 122 := by
  simp [isLower]

theorem isUpper_iff {c : Nat} : isUpper c = true ↔ 65 ≤ c ∧ c ≤ 90 := by
  simp [isUpper]

theorem isDigit_iff {c : Nat} : isDigit c = true ↔ 48 ≤ c ∧ c ≤ 57 := by
  simp [isDigit]

theorem decodeAlpha_foldl_eq {b : Nat} :
    ∀ (s : List Nat) (v : Nat), (∀ c ∈ s, b ≤ c) →
      s.foldl (fun (v : Int) (c : Nat) => v * 26 + ((c : Int) - (b : Int)) + 1) (v : Int) =
        ((s.foldl (fun (v : Nat) (c : Nat) => v * 26 + (c + 1 - b)) v : Nat) : Int) := by
  intro s
  induction s with
  | nil => intro v _; rfl
  | cons c t ih =>
    intro v h
    have hc : b ≤ c := h c (List.mem_cons_self _ _)
    have h1 : ((v : Int) * 26 + ((c : Int) - (b : Int)) + 1)
        = ((v * 26 + (c + 1 - b) : Nat) : Int) := by
      have : ((c + 1 - b : Nat) : Int) = (c : Int) + 1 - (b : Int) := by
        omega
      push_cast
      omega
    simpa [h1] using ih (v * 26 + (c + 1 - b)) (fun x hx => h x (List.mem_cons_of_mem _ hx))

theorem decodeLower_eq {s : List Nat} (h : ∀ c ∈ s, 97 ≤ c) :
    decodeLower s = ((decAlphaVal 97 s : Nat) : Int) - 1 := by
  have h2 := decodeAlpha_foldl_eq (b := 97) s 0 h
  simp only [Nat.cast_ofNat, Nat.cast_zero] at h2
  unfold decodeLower decAlphaVal
  rw [h2]

theorem decodeUpper_eq {s : List Nat} (h : ∀ c ∈ s, 65 ≤ c) :
    decodeUpper s = ((decAlphaVal 65 s : Nat) : Int) - 1 := by
  have h2 := decodeAlpha_foldl_eq (b := 65) s 0 h
  simp only [Nat.cast_ofNat, Nat.cast_zero] at h2
  unfold decodeUpper decAlphaVal
  rw [h2]

theorem decodeDigit_foldl_eq :
    ∀ (s : List Nat) (v : Nat), (∀ c ∈ s, 48 ≤ c) →
      s.foldl (fun (v : Int) (c : Nat) => v * 10 + ((c : Int) - 48)) (v : Int) =
        ((s.foldl (fun (v : Nat) (c : Nat) => v * 10 + (c - 48)) v : Nat) : Int) := by
  intro s
  induction s with
  | nil => intro v _; rfl
  | cons c t ih =>
    intro v h
    have hc : 48 ≤ c := h c (List.mem_cons_self _ _)
    have h1 : ((v : Int) * 10 + ((c : Int) - 48)) = ((v * 10 + (c - 48) : Nat) : Int) := by
      push_cast
      omega
    simpa [h1] using ih (v * 10 + (c - 48)) (fun x hx => h x (List.mem_cons_of_mem _ hx))

theorem decodeDigit_eq {s : List Nat} (h : ∀ c ∈ s, 48 ≤ c) :
    decodeDigit s = ((decDigitVal s : Nat) : Int) - 1 := by
  have h2 := decodeDigit_foldl_eq s 0 h
  simp only [Nat.cast_ofNat, Nat.cast_zero] at h2
  unfold decodeDigit decDigitVal
  rw [h2]

theorem decAlpha_foldl_ge {b : Nat} :
    ∀ (s : List Nat) (v : Nat),
      v * 26 ^ s.length ≤ s.foldl (fun v c => v * 26 + (c + 1 - b)) v := by
  intro s
  induction s with
  | nil => intro v; simp
  | cons c t ih =>
    intro v
    calc v * 26 ^ (c :: t).length = (v * 26) * 26 ^ t.length := by
          simp [List.length_cons, pow_succ]; ring
      _ ≤ (v * 26 + (c + 1 - b)) * 26 ^ t.length := by
          exact Nat.mul_le_mul_right _ (Nat.le_add_right _ _)
      _ ≤ t.foldl (fun v c => v * 26 + (c + 1 - b)) (v * 26 + (c + 1 - b)) := ih _

theorem decAlphaVal_ge_pow {b : Nat} {c : Nat} {t : List Nat} (hc : b ≤ c) :
    26 ^ t.length ≤ decAlphaVal b (c :: t) := by
  have h1 : (c + 1 - b) * 26 ^ t.length ≤ decAlphaVal b (c :: t) := by
    unfold decAlphaVal
    simpa using decAlpha_foldl_ge t (c + 1 - b)
  have h2 : 1 ≤ c + 1 - b := by omega
  calc 26 ^ t.length = 1 * 26 ^ t.length := (one_mul _).symm
    _ ≤ (c + 1 - b) * 26 ^ t.length := Nat.mul_le_mul_right _ h2
    _ ≤ _ := h1

theorem decAlphaVal_pos {b : Nat} {c : Nat} {t : List Nat} (hc : b ≤ c) :
    1 ≤ decAlphaVal b (c :: t) := by
  have := decAlphaVal_ge_pow (t := t) hc
  have h1 : 1 ≤ 26 ^ t.length := Nat.one_le_pow _ _ (by norm_num)
  omega

theorem decDigit_foldl_ge :
    ∀ (s : List Nat) (v : Nat),
      v * 10 ^ s.length ≤ s.foldl (fun v c => v * 10 + (c - 48)) v := by
  intro s
  induction s with
  | nil => intro v; simp
  | cons c t ih =>
    intro v
    calc v * 10 ^ (c :: t).length = (v * 10) * 10 ^ t.length := by
          simp [List.length_cons, pow_succ]; ring
      _ ≤ (v * 10 + (c - 48)) * 10 ^ t.length := by
          exact Nat.mul_le_mul_right _ (Nat.le_add_right _ _)
      _ ≤ t.foldl (fun v c => v * 10 + (c - 48)) (v * 10 + (c - 48)) := ih _

theorem decDigitVal_ge_pow {c : Nat} {t : List Nat} (hc : 49 ≤ c) :
    10 ^ t.length ≤ decDigitVal (c :: t) := by
  have h1 : (c - 48) * 10 ^ t.length ≤ decDigitVal (c :: t) := by
    unfold decDigitVal
    simpa using decDigit_foldl_ge t (c - 48)
  have h2 : 1 ≤ c - 48 := by omega
  calc 10 ^ t.length = 1 * 10 ^ t.length := (one_mul _).symm
    _ ≤ (c - 48) * 10 ^ t.length := Nat.mul_le_mul_right _ h2
    _ ≤ _ := h1

theorem encodeAlphaAux_zero {b : Nat} (fuel : Nat) (acc : List Nat) :
    encodeAlphaAux b fuel 0 acc = acc := by
  cases fuel <;> simp [encodeAlphaAux]

theorem encodeAlphaAux_append {b : Nat} :
    ∀ (fuel v : Nat) (acc : List Nat), v ≤ fuel →
      encodeAlphaAux b fuel v acc = encodeAlphaAux b fuel v [] ++ acc := by
  intro fuel
  induction fuel with
  | zero => intro v acc _; simp [encodeAlphaAux]
  | succ f ih =>
    intro v acc hv
    by_cases h0 : v = 0
    · subst h0; simp [encodeAlphaAux]
    · have hlt : (v - 1) / 26 ≤ f := by
        have : (v - 1) / 26 ≤ v - 1 := Nat.div_le_self _ _
        omega
      rw [show encodeAlphaAux b (f + 1) v acc
            = encodeAlphaAux b f ((v - 1) / 26) ((b + (v - 1) % 26) :: acc) by
          simp [encodeAlphaAux, h0]]
      rw [show encodeAlphaAux b (f + 1) v []
            = encodeAlphaAux b f ((v - 1) / 26) [b + (v - 1) % 26] by
          simp [encodeAlphaAux, h0]]
      rw [ih _ _ hlt, ih _ [b + (v - 1) % 26] hlt]
      simp

theorem decAlphaVal_encodeAlphaAux {b : Nat} :
    ∀ (fuel v : Nat), 1 ≤ v → v ≤ fuel →
      decAlphaVal b (encodeAlphaAux b fuel v []) = v := by
  intro fuel
  induction fuel with
  | zero => intro v hv hvf; omega
  | succ f ih =>
    intro v hv hvf
    have h0 : ¬ v = 0 := by omega
    rw [show encodeAlphaAux b (f + 1) v []
          = encodeAlphaAux b f ((v - 1) / 26) [b + (v - 1) % 26] by
        simp [encodeAlphaAux, h0]]
    by_cases hq : (v - 1) / 26 = 0
    · rw [hq, encodeAlphaAux_zero]
      have hm : (v - 1) % 26 = v - 1 := by
        have := Nat.div_add_mod (v - 1) 26
        omega
      unfold decAlphaVal
      simp [hm]
      omega
    · have hq1 : 1 ≤ (v - 1) / 26 := by omega
      have hqf : (v - 1) / 26 ≤ f := by
        have : (v - 1) / 26 ≤ v - 1 := Nat.div_le_self _ _
        omega
      rw [encodeAlphaAux_append f _ _ hqf]
      unfold decAlphaVal
      rw [List.foldl_append]
      have hrec := ih _ hq1 hqf
      unfold decAlphaVal at hrec
      rw [hrec]
      simp
      have hdm := Nat.div_add_mod (v - 1) 26
      omega

theorem encodeAlphaAux_chars {b : Nat} :
    ∀ (fuel v : Nat), v ≤ fuel →
      ∀ c ∈ encodeAlphaAux b fuel v [], b ≤ c ∧ c ≤ b + 25 := by
  intro fuel
  induction fuel with
  | zero => intro v _ c hc; simp [encodeAlphaAux] at hc
  | succ f ih =>
    intro v hv c hc
    by_cases h0 : v = 0
    · subst h0; simp [encodeAlphaAux] at hc
    · rw [show encodeAlphaAux b (f + 1) v []
            = encodeAlphaAux b f ((v - 1) / 26) [b + (v - 1) % 26] by
          simp [encodeAlphaAux, h0]] at hc
      have hqf : (v - 1) / 26 ≤ f := by
        have : (v - 1) / 26 ≤ v - 1 := Nat.div_le_self _ _
        omega
      rw [encodeAlphaAux_append f _ _ hqf] at hc
      rcases List.mem_append.1 hc with h | h
      · exact ih _ hqf c h
      · have hm : (v - 1) % 26 < 26 := Nat.mod_lt _ (by norm_num)
        simp at h
        omega

theorem encodeAlphaAux_ne_nil {b : Nat} {fuel v : Nat}
    (hv : 1 ≤ v) (hvf : v ≤ fuel) : encodeAlphaAux b fuel v [] ≠ [] := by
  intro hcon
  have := decAlphaVal_encodeAlphaAux (b := b) fuel v hv hvf
  rw [hcon] at this
  simp [decAlphaVal] at this
  omega

theorem encodeAlphaAux_decAlphaVal {b : Nat} :
    ∀ (s : List Nat), s ≠ [] → (∀ c ∈ s, b ≤ c ∧ c ≤ b + 25) →
      ∀ fuel, decAlphaVal b s ≤ fuel →
        encodeAlphaAux b fuel (decAlphaVal b s) [] = s := by
  intro s
  induction s using List.reverseRecOn with
  | nil => intro h; exact absurd rfl h
  | append_singleton A c ihA =>
    intro _ hchars fuel hfuel
    have hc : b ≤ c ∧ c ≤ b + 25 := hchars c (by simp)
    have hval : decAlphaVal b (A ++ [c]) = decAlphaVal b A * 26 + (c + 1 - b) := by
      unfold decAlphaVal
      rw [List.foldl_append]
      simp
    have hd0r : 1 ≤ c + 1 - b ∧ c + 1 - b ≤ 26 := by omega
    have hv1 : 1 ≤ decAlphaVal b (A ++ [c]) := by omega
    obtain ⟨f, rfl⟩ : ∃ f, fuel = f + 1 := ⟨fuel - 1, by omega⟩
    have h0 : ¬ decAlphaVal b (A ++ [c]) = 0 := by omega
    rw [show encodeAlphaAux b (f + 1) (decAlphaVal b (A ++ [c])) []
          = encodeAlphaAux b f ((decAlphaVal b (A ++ [c]) - 1) / 26)
              [b + (decAlphaVal b (A ++ [c]) - 1) % 26] by
        simp [encodeAlphaAux, h0]]
    have hdiv : (decAlphaVal b (A ++ [c]) - 1) / 26 = decAlphaVal b A := by omega
    have hmod : (decAlphaVal b (A ++ [c]) - 1) % 26 = (c + 1 - b) - 1 := by omega
    rw [hdiv, hmod, show b + ((c + 1 - b) - 1) = c by omega]
    rcases A with _ | ⟨x, xs⟩
    · rw [show decAlphaVal b ([] : List Nat) = 0 by simp [decAlphaVal],
        encodeAlphaAux_zero]
      simp
    · have hx : b ≤ x := (hchars x (by simp)).1
      have hq1 : 1 ≤ decAlphaVal b (x :: xs) := decAlphaVal_pos hx
      have hqf : decAlphaVal b (x :: xs) ≤ f := by
        have hd : (decAlphaVal b ((x :: xs) ++ [c]) - 1) / 26
            ≤ decAlphaVal b ((x :: xs) ++ [c]) - 1 := Nat.div_le_self _ _
        omega
      rw [encodeAlphaAux_append f _ [c] hqf]
      rw [ihA (by simp) (fun y hy => hchars y (List.mem_append_left _ hy)) f hqf]

/-- Length bound: a bijective base-26 rendering of a value `< 26 ^ k` has at
most `k` digits. -/
theorem encodeAlphaAux_length_le {b : Nat} {fuel v k : Nat}
    (hv : 1 ≤ v) (hvf : v ≤ fuel) (hk : v < 26 ^ k) :
    (encodeAlphaAux b fuel v []).length ≤ k := by
  rcases hs : encodeAlphaAux b fuel v [] with _ | ⟨c, t⟩
  · simp
  · have hchars := encodeAlphaAux_chars (b := b) fuel v hvf
    rw [hs] at hchars
    have hc : b ≤ c := (hchars c (by simp)).1
    have hge : 26 ^ t.length ≤ decAlphaVal b (c :: t) := decAlphaVal_ge_pow hc
    have hval : decAlphaVal b (c :: t) = v := by
      have := decAlphaVal_encodeAlphaAux (b := b) fuel v hv hvf
      rw [hs] at this
      exact this
    rw [hval] at hge
    have h1 : 26 ^ t.length < 26 ^ k := lt_of_le_of_lt hge hk
    have := (pow_lt_pow_iff_right₀ (a := (26 : Nat)) (by norm_num)).1 h1
    simp
    omega

/-! Decimal encoder lemmas (mirror of the base-26 ones). -/

theorem encodeDigitAux_zero (fuel : Nat) (acc : List Nat) :
    encodeDigitAux fuel 0 acc = acc := by
  cases fuel <;> simp [encodeDigitAux]

theorem encodeDigitAux_append :
    ∀ (fuel v : Nat) (acc : List Nat), v ≤ fuel →
      encodeDigitAux fuel v acc = encodeDigitAux fuel v [] ++ acc := by
  intro fuel
  induction fuel with
  | zero => intro v acc _; simp [encodeDigitAux]
  | succ f ih =>
    intro v acc hv
    by_cases h0 : v = 0
    · subst h0; simp [encodeDigitAux]
    · have hlt : v / 10 ≤ f := by
        have : v / 10 ≤ v - 1 := by
          have h1 : v / 10 < v := Nat.div_lt_self (by omega) (by norm_num)
          omega
        omega
      rw [show encodeDigitAux (f + 1) v acc
            = encodeDigitAux f (v / 10) ((48 + v % 10) :: acc) by
          simp [encodeDigitAux, h0]]
      rw [show encodeDigitAux (f + 1) v []
            = encodeDigitAux f (v / 10) [48 + v % 10] by
          simp [encodeDigitAux, h0]]
      rw [ih _ _ hlt, ih _ [48 + v % 10] hlt]
      simp

theorem decDigitVal_encodeDigitAux :
    ∀ (fuel v : Nat), 1 ≤ v → v ≤ fuel →
      decDigitVal (encodeDigitAux fuel v []) = v := by
  intro fuel
  induction fuel with
  | zero => intro v hv hvf; omega
  | succ f ih =>
    intro v hv hvf
    have h0 : ¬ v = 0 := by omega
    rw [show encodeDigitAux (f + 1) v []
          = encodeDigitAux f (v / 10) [48 + v % 10] by
        simp [encodeDigitAux, h0]]
    by_cases hq : v / 10 = 0
    · rw [hq, encodeDigitAux_zero]
      have hm : v % 10 = v := by
        have := Nat.div_add_mod v 10
        omega
      unfold decDigitVal
      simp [hm]
    · have hq1 : 1 ≤ v / 10 := by omega
      have hqf : v / 10 ≤ f := by
        have : v / 10 < v := Nat.div_lt_self (by omega) (by norm_num)
        omega
      rw [encodeDigitAux_append f _ _ hqf]
      unfold decDigitVal
      rw [List.foldl_append]
      have hrec := ih _ hq1 hqf
      unfold decDigitVal at hrec
      rw [hrec]
      simp
      have hdm := Nat.div_add_mod v 10
      omega

/-- The decimal rendering of `v ≥ 1` is nonempty, its head is a nonzero
digit (`'1'..'9'`), and every byte is a digit. -/
theorem encodeDigitAux_shape :
    ∀ (fuel v : Nat), 1 ≤ v → v ≤ fuel →
      ∃ h t, encodeDigitAux fuel v [] = h :: t ∧ 49 ≤ h ∧ h ≤ 57 ∧
        ∀ c ∈ t, 48 ≤ c ∧ c ≤ 57 := by
  intro fuel
  induction fuel with
  | zero => intro v hv hvf; omega
  | succ f ih =>
    intro v hv hvf
    have h0 : ¬ v = 0 := by omega
    rw [show encodeDigitAux (f + 1) v []
          = encodeDigitAux f (v / 10) [48 + v % 10] by
        simp [encodeDigitAux, h0]]
    by_cases hq : v / 10 = 0
    · rw [hq, encodeDigitAux_zero]
      have hm : v % 10 = v := by
        have := Nat.div_add_mod v 10
        omega
      have hv9 : v ≤ 9 := by omega
      exact ⟨48 + v % 10, [], rfl, by omega, by omega, by simp⟩
    · have hq1 : 1 ≤ v / 10 := by omega
      have hqf : v / 10 ≤ f := by
        have : v / 10 < v := Nat.div_lt_self (by omega) (by norm_num)
        omega
      rw [encodeDigitAux_append f _ _ hqf]
      obtain ⟨h, t, heq, hh1, hh2, ht⟩ := ih _ hq1 hqf
      refine ⟨h, t ++ [48 + v % 10], by rw [heq]; simp, hh1, hh2, ?_⟩
      intro c hc
      rcases List.mem_append.1 hc with hc | hc
      · exact ht c hc
      · have : v % 10 < 10 := Nat.mod_lt _ (by norm_num)
        simp at hc
        omega

theorem encodeDigitAux_decDigitVal :
    ∀ (s : List Nat), s ≠ [] → (∀ c ∈ s, 48 ≤ c ∧ c ≤ 57) →
      (∀ h, s.head? = some h → 49 ≤ h) →
      ∀ fuel, decDigitVal s ≤ fuel →
        encodeDigitAux fuel (decDigitVal s) [] = s := by
  intro s
  induction s using List.reverseRecOn with
  | nil => intro h; exact absurd rfl h
  | append_singleton A c ihA =>
    intro _ hchars hhead fuel hfuel
    have hc : 48 ≤ c ∧ c ≤ 57 := hchars c (by simp)
    have hval : decDigitVal (A ++ [c]) = decDigitVal A * 10 + (c - 48) := by
      unfold decDigitVal
      rw [List.foldl_append]
      simp
    have hA0 : A = [] → 49 ≤ c := by
      intro hA
      subst hA
      exact hhead c (by simp)
    have hv1 : 1 ≤ decDigitVal (A ++ [c]) := by
      rcases A with _ | ⟨x, xs⟩
      · have := hA0 rfl
        have h1 : decDigitVal ([] : List Nat) = 0 := by simp [decDigitVal]
        omega
      · have hx : 49 ≤ x := hhead x (by simp)
        have := decDigitVal_ge_pow (t := xs) hx
        have h1 : 1 ≤ 10 ^ xs.length := Nat.one_le_pow _ _ (by norm_num)
        omega
    obtain ⟨f, rfl⟩ : ∃ f, fuel = f + 1 := ⟨fuel - 1, by omega⟩
    have h0 : ¬ decDigitVal (A ++ [c]) = 0 := by omega
    rw [show encodeDigitAux (f + 1) (decDigitVal (A ++ [c])) []
          = encodeDigitAux f (decDigitVal (A ++ [c]) / 10)
              [48 + decDigitVal (A ++ [c]) % 10] by
        simp [encodeDigitAux, h0]]
    have hdiv : decDigitVal (A ++ [c]) / 10 = decDigitVal A := by omega
    have hmod : 48 + decDigitVal (A ++ [c]) % 10 = c := by omega
    rw [hdiv, hmod]
    rcases A with _ | ⟨x, xs⟩
    · rw [show decDigitVal ([] : List Nat) = 0 by simp [decDigitVal],
        encodeDigitAux_zero]
      simp
    · -- A = x :: xs is nonempty: its head x is the head of the whole run
      have hx : 49 ≤ x := hhead x (by simp)
      have hq1 : 1 ≤ decDigitVal (x :: xs) := by
        have := decDigitVal_ge_pow (t := xs) hx
        have h1 : 1 ≤ 10 ^ xs.length := Nat.one_le_pow _ _ (by norm_num)
        omega
      have hqf : decDigitVal (x :: xs) ≤ f := by
        have h1 : (decDigitVal ((x :: xs) ++ [c]) - 1) / 10
            ≤ decDigitVal ((x :: xs) ++ [c]) - 1 := Nat.div_le_self _ _
        omega
      rw [encodeDigitAux_append f _ [c] hqf]
      rw [ihA (by simp) (fun y hy => hchars y (List.mem_append_left _ hy))
        (fun h hh => hhead h (by simpa using hh)) f hqf]

/-- Length bound: the decimal rendering of a value `< 10 ^ k` has at most
`k` digits. -/
theorem encodeDigitAux_length_le {fuel v k : Nat}
    (hv : 1 ≤ v) (hvf : v ≤ fuel) (hk : v < 10 ^ k) :
    (encodeDigitAux fuel v []).length ≤ k := by
  obtain ⟨h, t, heq, hh1, _, _⟩ := encodeDigitAux_shape fuel v hv hvf
  have hge : 10 ^ t.length ≤ decDigitVal (h :: t) := decDigitVal_ge_pow hh1
  have hval : decDigitVal (h :: t) = v := by
    have := decDigitVal_encodeDigitAux fuel v hv hvf
    rw [heq] at this
    exact this
  rw [hval] at hge
  have hlt : 10 ^ t.length < 10 ^ k := lt_of_le_of_lt hge hk
  have := (pow_lt_pow_iff_right₀ (a := (10 : Nat)) (by norm_num)).1 hlt
  rw [heq]
  simp
  omega

/-! ## Runs and the cyclic character-class system

`classPred m` is the byte class expected at a dimension with `dim % 3 = m`;
`GoodRun m r` says `r` is a legal (nonempty, properly started) run of that
class; `decodeDim m` is the matching decoder. -/

def classPred : Nat → Nat → Bool
  | 0 => isLower
  | 1 => isDigit
  | _ => isUpper

def decodeDim (m : Nat) (r : List Nat) : Int :=
  match m with
  | 0 => decodeLower r
  | 1 => decodeDigit r
  | _ => decodeUpper r

def GoodRun (m : Nat) (r : List Nat) : Prop :=
  match r with
  | [] => False
  | c :: t => classPred m c = true ∧ (m = 1 → c ≠ 48) ∧ ∀ x ∈ t, classPred m x = true

/-- No carriage return (13) or line feed (10): the byte-level content of
`strings.ContainsAny(s, "\r\n") == false`. -/
def noCRLF (s : List Nat) : Prop := 13 ∉ s ∧ 10 ∉ s

theorem classPred_ne {m m' : Nat} (hm : m < 3) (hm' : m' < 3) (hne : m ≠ m')
    {c : Nat} (hc : classPred m c = true) : classPred m' c = false := by
  interval_cases m <;> interval_cases m' <;>
    simp_all [classPred, isLower, isUpper, isDigit] <;> omega

theorem takeWhile_append_all {p : Nat → Bool} :
    ∀ {a b : List Nat}, (∀ x ∈ a, p x = true) →
      (∀ h, b.head? = some h → p h = false) →
      (a ++ b).takeWhile p = a ∧ (a ++ b).dropWhile p = b := by
  intro a
  induction a with
  | nil =>
    intro b _ hb
    rcases b with _ | ⟨h, t⟩
    · simp
    · have := hb h rfl
      simp [List.takeWhile_cons, List.dropWhile_cons, this]
  | cons x a' ih =>
    intro b ha hb
    have hx : p x = true := ha x (by simp)
    have := ih (fun y hy => ha y (by simp [hy])) hb
    simp [List.takeWhile_cons, List.dropWhile_cons, hx, this]

theorem length_dropWhile_le' (p : Nat → Bool) (l : List Nat) :
    (l.dropWhile p).length ≤ l.length := by
  induction l with
  | nil => simp
  | cons x t ih =>
    by_cases hx : p x
    · rw [List.dropWhile_cons, if_pos hx]
      simp
      omega
    · rw [List.dropWhile_cons, if_neg hx]

theorem head?_dropWhile_false {p : Nat → Bool} :
    ∀ {l : List Nat} {h : Nat}, (l.dropWhile p).head? = some h → p h = false := by
  intro l
  induction l with
  | nil => intro h hh; simp at hh
  | cons x t ih =>
    intro h hh
    by_cases hx : p x
    · rw [List.dropWhile_cons, if_pos hx] at hh
      exact ih hh
    · rw [List.dropWhile_cons, if_neg hx] at hh
      simp at hh
      subst hh
      simpa using hx

/-! Unfolding lemmas for `validateLoop`. -/

theorem validateLoop_nil (fuel d : Nat) : validateLoop fuel [] d = none := by
  cases fuel <;> simp [validateLoop]

theorem validateLoop_tooMany {fuel : Nat} {c : Nat} {rest : List Nat} {d : Nat}
    (hd : 3 ≤ d) : validateLoop (fuel + 1) (c :: rest) d = some .tooManyDims := by
  have : MaxDimensions ≤ d := hd
  simp [validateLoop, this]

/-- One scanner step: at dimension `d < 3`, with a legal, in-range run `r` in
front whose maximality is witnessed by the next byte failing the class, the
loop consumes exactly `r` and proceeds to dimension `d + 1`. -/
theorem validateLoop_step {fuel d : Nat} {r rest : List Nat}
    (hfuel : (r ++ rest).length ≤ fuel + 1) (hd : d < 3)
    (hr : GoodRun (d % 3) r)
    (hbound : decodeDim (d % 3) r ≤ (MaxIndex : Int))
    (hrest : ∀ h, rest.head? = some h → classPred (d % 3) h = false) :
    validateLoop (fuel + 1) (r ++ rest) d = validateLoop fuel rest (d + 1) := by
  rcases r with _ | ⟨c, t⟩
  · exact absurd hr (by simp [GoodRun])
  · obtain ⟨hc, hz, ht⟩ := hr
    have hnd : ¬ MaxDimensions ≤ d := by simp [MaxDimensions]; omega
    have hspan := takeWhile_append_all (p := classPred (d % 3)) ht hrest
    have hm3 : d % 3 = 0 ∨ d % 3 = 1 ∨ d % 3 = 2 := by omega
    rcases hm3 with hm | hm | hm
    · rw [hm] at hc hz ht hrest hspan hbound
      simp only [classPred] at hc ht hspan
      have hb : ¬ (MaxIndex : Int) < decodeLower (c :: t) := by
        simpa [decodeDim] using hbound
      simp only [validateLoop, List.cons_append, if_neg hnd, hm, List.append_eq]
      rw [hspan.1, hspan.2, if_pos hc, if_neg hb]
    · rw [hm] at hc hz ht hrest hspan hbound
      have hz' : c ≠ 48 := hz rfl
      simp only [classPred] at hc ht hspan
      have hb : ¬ (MaxIndex : Int) < decodeDigit (c :: t) := by
        simpa [decodeDim] using hbound
      simp only [validateLoop, List.cons_append, if_neg hnd, hm, List.append_eq]
      rw [hspan.1, hspan.2, if_neg hz', if_pos hc, if_neg hb]
    · rw [hm] at hc hz ht hrest hspan hbound
      simp only [classPred] at hc ht hspan
      have hb : ¬ (MaxIndex : Int) < decodeUpper (c :: t) := by
        simpa [decodeDim] using hbound
      simp only [validateLoop, List.cons_append, if_neg hnd, hm, List.append_eq]
      rw [hspan.1, hspan.2, if_pos hc, if_neg hb]

theorem validateLoop_headFail {fuel d : Nat} {c : Nat} {rest : List Nat}
    (hd : d < 3) (hc : classPred (d % 3) c = false) (hz : d % 3 = 1 → c ≠ 48) :
    validateLoop (fuel + 1) (c :: rest) d = some .unexpectedChar := by
  have hnd : ¬ MaxDimensions ≤ d := by simp [MaxDimensions]; omega
  have hm3 : d % 3 = 0 ∨ d % 3 = 1 ∨ d % 3 = 2 := by omega
  rcases hm3 with hm | hm | hm <;> rw [hm] at hc hz <;>
    simp only [classPred] at hc
  · simp [validateLoop, hnd, hm, hc]
  · simp [validateLoop, hnd, hm, hc, hz rfl]
  · simp [validateLoop, hnd, hm, hc]

theorem validateLoop_leadingZero {fuel d : Nat} {rest : List Nat}
    (hd : d < 3) (hm : d % 3 = 1) :
    validateLoop (fuel + 1) (48 :: rest) d = some .leadingZero := by
  have hnd : ¬ MaxDimensions ≤ d := by simp [MaxDimensions]; omega
  simp [validateLoop, hnd, hm]

theorem getD_set_self {l : List Nat} {i : Nat} {v : Nat} (h : i < l.length) :
    (l.set i v).getD i 0 = v := by
  simp [List.getD, List.getElem?_set_self, h]

theorem getD_set_ne {l : List Nat} {i j : Nat} {v : Nat} (h : i ≠ j) :
    (l.set i v).getD j 0 = l.getD j 0 := by
  simp [List.getD, List.getElem?_set_ne h]

/-- A legal, in-range run is reproduced exactly by the matching encoder from
its (`uint8`-truncated) decoded value. -/
theorem encDim_decodeDim {m : Nat} {r : List Nat} (hm : m < 3) (hr : GoodRun m r)
    (hbound : decodeDim m r ≤ (MaxIndex : Int)) :
    encDim m ((decodeDim m r % 256).toNat) = r := by
  rcases r with _ | ⟨c, t⟩
  · exact absurd hr (by simp [GoodRun])
  obtain ⟨hc, hz, ht⟩ := hr
  have hm3 : m = 0 ∨ m = 1 ∨ m = 2 := by omega
  rcases hm3 with hm' | hm' | hm'
  · subst hm'
    simp only [classPred] at hc ht
    have hchars : ∀ x ∈ c :: t, 97 ≤ x ∧ x ≤ 97 + 25 := by
      intro x hx
      rcases hx with _ | hx
      · have := isLower_iff.1 hc
        omega
      · have := isLower_iff.1 (ht _ (by assumption))
        omega
    have hlo : ∀ x ∈ c :: t, 97 ≤ x := fun x hx => (hchars x hx).1
    have hdec : decodeLower (c :: t) = ((decAlphaVal 97 (c :: t) : Nat) : Int) - 1 :=
      decodeLower_eq hlo
    have hpos : 1 ≤ decAlphaVal 97 (c :: t) := decAlphaVal_pos (hchars c (by simp)).1
    have hle : decAlphaVal 97 (c :: t) ≤ 256 := by
      simp only [decodeDim] at hbound
      rw [hdec] at hbound
      simp only [MaxIndex] at hbound
      omega
    have hmod : decodeLower (c :: t) % 256 = decodeLower (c :: t) := by
      rw [hdec]
      rw [Int.emod_eq_of_lt] <;> omega
    simp only [decodeDim, hmod]
    have htn : (decodeLower (c :: t)).toNat = decAlphaVal 97 (c :: t) - 1 := by
      rw [hdec]
      omega
    simp only [encDim, htn, encodeLower]
    have h1 : decAlphaVal 97 (c :: t) - 1 + 1 = decAlphaVal 97 (c :: t) := by omega
    rw [h1]
    exact encodeAlphaAux_decAlphaVal _ (by simp) hchars _ le_rfl
  · subst hm'
    simp only [classPred] at hc ht
    have hchars : ∀ x ∈ c :: t, 48 ≤ x ∧ x ≤ 57 := by
      intro x hx
      rcases hx with _ | hx
      · exact isDigit_iff.1 hc
      · exact isDigit_iff.1 (ht _ (by assumption))
    have hlo : ∀ x ∈ c :: t, 48 ≤ x := fun x hx => (hchars x hx).1
    have hdec : decodeDigit (c :: t) = ((decDigitVal (c :: t) : Nat) : Int) - 1 :=
      decodeDigit_eq hlo
    have hhc : 49 ≤ c := by
      have := (hchars c (by simp)).1
      have := hz rfl
      omega
    have hpos : 1 ≤ decDigitVal (c :: t) := by
      have := decDigitVal_ge_pow (t := t) hhc
      have h1 : 1 ≤ 10 ^ t.length := Nat.one_le_pow _ _ (by norm_num)
      omega
    have hle : decDigitVal (c :: t) ≤ 256 := by
      simp only [decodeDim] at hbound
      rw [hdec] at hbound
      simp only [MaxIndex] at hbound
      omega
    have hmod : decodeDigit (c :: t) % 256 = decodeDigit (c :: t) := by
      rw [hdec]
      rw [Int.emod_eq_of_lt] <;> omega
    simp only [decodeDim, hmod]
    have htn : (decodeDigit (c :: t)).toNat = decDigitVal (c :: t) - 1 := by
      rw [hdec]
      omega
    simp only [encDim, htn, encodeDigit]
    have h1 : decDigitVal (c :: t) - 1 + 1 = decDigitVal (c :: t) := by omega
    rw [h1]
    exact encodeDigitAux_decDigitVal _ (by simp) hchars
      (fun h hh => by simp at hh; omega) _ le_rfl
  · subst hm'
    simp only [classPred] at hc ht
    have hchars : ∀ x ∈ c :: t, 65 ≤ x ∧ x ≤ 65 + 25 := by
      intro x hx
      rcases hx with _ | hx
      · have := isUpper_iff.1 hc
        omega
      · have := isUpper_iff.1 (ht _ (by assumption))
        omega
    have hlo : ∀ x ∈ c :: t, 65 ≤ x := fun x hx => (hchars x hx).1
    have hdec : decodeUpper (c :: t) = ((decAlphaVal 65 (c :: t) : Nat) : Int) - 1 :=
      decodeUpper_eq hlo
    have hpos : 1 ≤ decAlphaVal 65 (c :: t) := decAlphaVal_pos (hchars c (by simp)).1
    have hle : decAlphaVal 65 (c :: t) ≤ 256 := by
      simp only [decodeDim] at hbound
      rw [hdec] at hbound
      simp only [MaxIndex] at hbound
      omega
    have hmod : decodeUpper (c :: t) % 256 = decodeUpper (c :: t) := by
      rw [hdec]
      rw [Int.emod_eq_of_lt] <;> omega
    simp only [decodeDim, hmod]
    have htn : (decodeUpper (c :: t)).toNat = decAlphaVal 65 (c :: t) - 1 := by
      rw [hdec]
      omega
    simp only [encDim, htn, encodeUpper]
    have h1 : decAlphaVal 65 (c :: t) - 1 + 1 = decAlphaVal 65 (c :: t) := by omega
    rw [h1]
    exact encodeAlphaAux_decAlphaVal _ (by simp) hchars _ le_rfl

/-! ## Round trip: string → Coordinate → string (claim C1)

The loop invariant: on a suffix accepted by `validateLoop`, `parseLoop`
consumes everything, only writes dimensions `≥ d`, stays within 3
dimensions, and re-encoding the dimensions it wrote reproduces the suffix
exactly. -/

theorem parseLoop_spec :
    ∀ (fuel : Nat) (s : List Nat) (d : Nat) (arr : List Nat),
      s.length ≤ fuel → d ≤ 3 → arr.length = 3 →
      validateLoop fuel s d = none →
      d ≤ (parseLoop fuel s d arr).2 ∧
      (parseLoop fuel s d arr).2 ≤ 3 ∧
      (parseLoop fuel s d arr).1.length = 3 ∧
      (∀ j, j < d → (parseLoop fuel s d arr).1.getD j 0 = arr.getD j 0) ∧
      formatRange (parseLoop fuel s d arr).1 d ((parseLoop fuel s d arr).2 - d) = s := by
  intro fuel
  induction fuel with
  | zero =>
    intro s d arr hlen hd harr _
    have hs : s = [] := List.eq_nil_of_length_eq_zero (by omega)
    subst hs
    simp [parseLoop, formatRange]
    omega
  | succ fuel ih =>
    intro s d arr hlen hd harr hval
    rcases s with _ | ⟨c, rest⟩
    · simp [parseLoop, formatRange]
      omega
    · have hd3 : d < 3 := by
        by_contra hcon
        rw [validateLoop_tooMany (by omega)] at hval
        exact Option.noConfusion hval
      have hz : d % 3 = 1 → c ≠ 48 := by
        intro hm1 hc48
        subst hc48
        rw [validateLoop_leadingZero hd3 hm1] at hval
        exact Option.noConfusion hval
      have hc : classPred (d % 3) c = true := by
        by_contra hcon
        rw [validateLoop_headFail hd3 (by simpa using hcon) hz] at hval
        exact Option.noConfusion hval
      have hnd : ¬ MaxDimensions ≤ d := by simp [MaxDimensions]; omega
      have hm3 : d % 3 = 0 ∨ d % 3 = 1 ∨ d % 3 = 2 := by omega
      -- notation for the three structurally identical class branches
      rcases hm3 with hm | hm | hm
      all_goals rw [hm] at hc hz
      all_goals simp only [classPred] at hc
      -- mode 0 : lowercase
      · simp only [validateLoop, if_neg hnd, hm, if_pos hc] at hval
        have hbound : ¬ (MaxIndex : Int) < decodeLower (c :: rest.takeWhile isLower) := by
          intro hcon
          rw [if_pos hcon] at hval
          exact Option.noConfusion hval
        rw [if_neg hbound] at hval
        have hrun : GoodRun (d % 3) (c :: rest.takeWhile isLower) := by
          rw [hm]
          exact ⟨hc, by omega, fun x hx => List.mem_takeWhile_imp hx⟩
        have hbound' : decodeDim (d % 3) (c :: rest.takeWhile isLower) ≤ (MaxIndex : Int) := by
          rw [hm]
          simpa [decodeDim] using hbound
        have hlen' : (rest.dropWhile isLower).length ≤ fuel := by
          have := length_dropWhile_le' isLower rest
          simp at hlen
          omega
        have harr' : (arr.set d ((decodeLower (c :: rest.takeWhile isLower) % 256).toNat)).length = 3 := by
          simp [harr]
        have IH := ih (rest.dropWhile isLower) (d + 1)
          (arr.set d ((decodeLower (c :: rest.takeWhile isLower) % 256).toNat))
          hlen' (by omega) harr' hval
        simp only [parseLoop, hm, if_pos hc]
        obtain ⟨ih1, ih2, ih3, ih4, ih5⟩ := IH
        refine ⟨by omega, ih2, ih3, ?_, ?_⟩
        · intro j hj
          rw [ih4 j (by omega), getD_set_ne (by omega)]
        · have hsub : (parseLoop fuel (rest.dropWhile isLower) (d + 1)
              (arr.set d ((decodeLower (c :: rest.takeWhile isLower) % 256).toNat))).2 - d
              = ((parseLoop fuel (rest.dropWhile isLower) (d + 1)
                  (arr.set d ((decodeLower (c :: rest.takeWhile isLower) % 256).toNat))).2 - (d + 1)) + 1 := by
            omega
          rw [hsub]
          simp only [formatRange]
          rw [ih4 d (by omega), getD_set_self (by omega)]
          have henc : encDim (d % 3) ((decodeLower (c :: rest.takeWhile isLower) % 256).toNat)
              = c :: rest.takeWhile isLower := by
            have := encDim_decodeDim (m := d % 3) (r := c :: rest.takeWhile isLower)
              (by omega) hrun hbound'
            rw [hm] at this ⊢
            simpa [decodeDim] using this
          rw [henc, ih5]
          simp [List.takeWhile_append_dropWhile]
      -- mode 1 : digits
      · simp only [validateLoop, if_neg hnd, hm, if_neg (hz rfl), if_pos hc] at hval
        have hbound : ¬ (MaxIndex : Int) < decodeDigit (c :: rest.takeWhile isDigit) := by
          intro hcon
          rw [if_pos hcon] at hval
          exact Option.noConfusion hval
        rw [if_neg hbound] at hval
        have hrun : GoodRun (d % 3) (c :: rest.takeWhile isDigit) := by
          rw [hm]
          exact ⟨hc, fun _ => hz rfl, fun x hx => List.mem_takeWhile_imp hx⟩
        have hbound' : decodeDim (d % 3) (c :: rest.takeWhile isDigit) ≤ (MaxIndex : Int) := by
          rw [hm]
          simpa [decodeDim] using hbound
        have hlen' : (rest.dropWhile isDigit).length ≤ fuel := by
          have := length_dropWhile_le' isDigit rest
          simp at hlen
          omega
        have harr' : (arr.set d ((decodeDigit (c :: rest.takeWhile isDigit) % 256).toNat)).length = 3 := by
          simp [harr]
        have IH := ih (rest.dropWhile isDigit) (d + 1)
          (arr.set d ((decodeDigit (c :: rest.takeWhile isDigit) % 256).toNat))
          hlen' (by omega) harr' hval
        simp only [parseLoop, hm, if_pos hc]
        obtain ⟨ih1, ih2, ih3, ih4, ih5⟩ := IH
        refine ⟨by omega, ih2, ih3, ?_, ?_⟩
        · intro j hj
          rw [ih4 j (by omega), getD_set_ne (by omega)]
        · have hsub : (parseLoop fuel (rest.dropWhile isDigit) (d + 1)
              (arr.set d ((decodeDigit (c :: rest.takeWhile isDigit) % 256).toNat))).2 - d
              = ((parseLoop fuel (rest.dropWhile isDigit) (d + 1)
                  (arr.set d ((decodeDigit (c :: rest.takeWhile isDigit) % 256).toNat))).2 - (d + 1)) + 1 := by
            omega
          rw [hsub]
          simp only [formatRange]
          rw [ih4 d (by omega), getD_set_self (by omega)]
          have henc : encDim (d % 3) ((decodeDigit (c :: rest.takeWhile isDigit) % 256).toNat)
              = c :: rest.takeWhile isDigit := by
            have := encDim_decodeDim (m := d % 3) (r := c :: rest.takeWhile isDigit)
              (by omega) hrun hbound'
            rw [hm] at this ⊢
            simpa [decodeDim] using this
          rw [henc, ih5]
          simp [List.takeWhile_append_dropWhile]
      -- mode 2 : uppercase
      · simp only [validateLoop, if_neg hnd, hm, if_pos hc] at hval
        have hbound : ¬ (MaxIndex : Int) < decodeUpper (c :: rest.takeWhile isUpper) := by
          intro hcon
          rw [if_pos hcon] at hval
          exact Option.noConfusion hval
        rw [if_neg hbound] at hval
        have hrun : GoodRun (d % 3) (c :: rest.takeWhile isUpper) := by
          rw [hm]
          exact ⟨hc, by omega, fun x hx => List.mem_takeWhile_imp hx⟩
        have hbound' : decodeDim (d % 3) (c :: rest.takeWhile isUpper) ≤ (MaxIndex : Int) := by
          rw [hm]
          simpa [decodeDim] using hbound
        have hlen' : (rest.dropWhile isUpper).length ≤ fuel := by
          have := length_dropWhile_le' isUpper rest
          simp at hlen
          omega
        have harr' : (arr.set d ((decodeUpper (c :: rest.takeWhile isUpper) % 256).toNat)).length = 3 := by
          simp [harr]
        have IH := ih (rest.dropWhile isUpper) (d + 1)
          (arr.set d ((decodeUpper (c :: rest.takeWhile isUpper) % 256).toNat))
          hlen' (by omega) harr' hval
        simp only [parseLoop, hm, if_pos hc]
        obtain ⟨ih1, ih2, ih3, ih4, ih5⟩ := IH
        refine ⟨by omega, ih2, ih3, ?_, ?_⟩
        · intro j hj
          rw [ih4 j (by omega), getD_set_ne (by omega)]
        · have hsub : (parseLoop fuel (rest.dropWhile isUpper) (d + 1)
              (arr.set d ((decodeUpper (c :: rest.takeWhile isUpper) % 256).toNat))).2 - d
              = ((parseLoop fuel (rest.dropWhile isUpper) (d + 1)
                  (arr.set d ((decodeUpper (c :: rest.takeWhile isUpper) % 256).toNat))).2 - (d + 1)) + 1 := by
            omega
          rw [hsub]
          simp only [formatRange]
          rw [ih4 d (by omega), getD_set_self (by omega)]
          have henc : encDim (d % 3) ((decodeUpper (c :: rest.takeWhile isUpper) % 256).toNat)
              = c :: rest.takeWhile isUpper := by
            have := encDim_decodeDim (m := d % 3) (r := c :: rest.takeWhile isUpper)
              (by omega) hrun hbound'
            rw [hm] at this ⊢
            simpa [decodeDim] using this
          rw [henc, ih5]
          simp [List.takeWhile_append_dropWhile]

/-- **C1.** For every string `s` accepted by `validate`, `Parse s` succeeds
(returning `parse s`) and re-encoding the parsed coordinate reproduces `s`
exactly: `format (parse s) = s`. -/
theorem roundtrip_string_to_string (s : List Nat) (h : validate s = none) :
    Parse s = some (parse s) ∧ format (parse s) = s := by
  refine ⟨by simp [Parse, h], ?_⟩
  rcases s with _ | ⟨c, rest⟩
  · simp [validate] at h
  · have hval : validateLoop (c :: rest).length (c :: rest) 0 = none := by
      simp only [validate] at h
      by_cases h7 : MaxStringLen < (c :: rest).length
      · rw [if_pos h7] at h
        exact Option.noConfusion h
      · rw [if_neg h7] at h
        by_cases hl : isLower c
        · rwa [if_pos hl] at h
        · rw [if_neg hl] at h
          exact Option.noConfusion h
    obtain ⟨s1, s2, s3, s4, s5⟩ :=
      parseLoop_spec (c :: rest).length (c :: rest) 0 [0, 0, 0] le_rfl (by omega) rfl hval
    simp only [parse, format]
    have hmod : (parseLoop (c :: rest).length (c :: rest) 0 [0, 0, 0]).2 % 256
        = (parseLoop (c :: rest).length (c :: rest) 0 [0, 0, 0]).2 :=
      Nat.mod_eq_of_lt (by omega)
    rw [hmod]
    simpa using s5

/-- Witness for C1 at the concrete accepted string `"e4"`. -/
theorem roundtrip_string_to_string_witness :
    Parse [101, 52] = some (parse [101, 52]) ∧ format (parse [101, 52]) = [101, 52] :=
  roundtrip_string_to_string [101, 52] (by decide)

/-! ## Round trip: Coordinate → string → Coordinate (claim C2) -/

/-- The invariant every reachable `Coordinate` satisfies: built either by
`NewCoordinate` (which zero-fills the unused slots of the `[3]uint8` array
and takes 1–3 `uint8` indices) or by `parse` on a validated string. -/
def ValidCoordinate (c : Coordinate) : Prop :=
  c.indices.length = 3 ∧ 1 ≤ c.dims ∧ c.dims ≤ MaxDimensions ∧
  (∀ i, i < 3 → c.indices.getD i 0 ≤ MaxIndex) ∧
  (∀ i, c.dims ≤ i → i < 3 → c.indices.getD i 0 = 0)

theorem parseLoop_nil (fuel d : Nat) (arr : List Nat) :
    parseLoop fuel [] d arr = (arr, d) := by
  cases fuel <;> simp [parseLoop]

theorem GoodRun_head {m : Nat} {r : List Nat} (hr : GoodRun m r) :
    ∀ h, r.head? = some h → classPred m h = true := by
  rcases r with _ | ⟨c, t⟩
  · exact absurd hr (by simp [GoodRun])
  · intro h hh
    simp at hh
    subst hh
    exact hr.1

theorem head?_append_left {a b : List Nat} (ha : a ≠ []) :
    (a ++ b).head? = a.head? := by
  rcases a with _ | ⟨x, t⟩
  · exact absurd rfl ha
  · simp

/-- The encoder produces a legal run of the right class that decodes back to
the encoded value. -/
theorem encDim_spec {m v : Nat} (hm : m < 3) (hv : v ≤ MaxIndex) :
    GoodRun m (encDim m v) ∧ decodeDim m (encDim m v) = (v : Int) := by
  have hv' : v ≤ 255 := hv
  have hm3 : m = 0 ∨ m = 1 ∨ m = 2 := by omega
  rcases hm3 with hm' | hm' | hm'
  · subst hm'
    simp only [encDim, encodeLower]
    have hchars := encodeAlphaAux_chars (b := 97) (v + 1) (v + 1) le_rfl
    have hne := encodeAlphaAux_ne_nil (b := 97) (v := v + 1) (by omega) le_rfl
    have hdec := decAlphaVal_encodeAlphaAux (b := 97) (v + 1) (v + 1) (by omega) le_rfl
    rcases hs : encodeAlphaAux 97 (v + 1) (v + 1) [] with _ | ⟨c, t⟩
    · exact absurd hs hne
    · rw [hs] at hchars hdec
      have hcl : ∀ x ∈ c :: t, isLower x = true := by
        intro x hx
        have := hchars x hx
        rw [isLower_iff]
        omega
      refine ⟨⟨hcl c (by simp), by omega, fun x hx => hcl x (by simp [hx])⟩, ?_⟩
      simp only [decodeDim]
      rw [decodeLower_eq (fun x hx => (hchars x hx).1), hdec]
      omega
  · subst hm'
    simp only [encDim, encodeDigit]
    obtain ⟨h, t, heq, hh1, hh2, ht⟩ := encodeDigitAux_shape (v + 1) (v + 1) (by omega) le_rfl
    have hdec := decDigitVal_encodeDigitAux (v + 1) (v + 1) (by omega) le_rfl
    rw [heq] at hdec ⊢
    have hcd : ∀ x ∈ h :: t, isDigit x = true := by
      intro x hx
      rw [isDigit_iff]
      rcases hx with _ | hx
      · omega
      · have := ht _ (by assumption)
        omega
    refine ⟨⟨hcd h (by simp), fun _ => by omega, fun x hx => hcd x (by simp [hx])⟩, ?_⟩
    simp only [decodeDim]
    rw [decodeDigit_eq (fun x hx => (isDigit_iff.1 (hcd x hx)).1), hdec]
    omega
  · subst hm'
    simp only [encDim, encodeUpper]
    have hchars := encodeAlphaAux_chars (b := 65) (v + 1) (v + 1) le_rfl
    have hne := encodeAlphaAux_ne_nil (b := 65) (v := v + 1) (by omega) le_rfl
    have hdec := decAlphaVal_encodeAlphaAux (b := 65) (v + 1) (v + 1) (by omega) le_rfl
    rcases hs : encodeAlphaAux 65 (v + 1) (v + 1) [] with _ | ⟨c, t⟩
    · exact absurd hs hne
    · rw [hs] at hchars hdec
      have hcu : ∀ x ∈ c :: t, isUpper x = true := by
        intro x hx
        have := hchars x hx
        rw [isUpper_iff]
        omega
      refine ⟨⟨hcu c (by simp), by omega, fun x hx => hcu x (by simp [hx])⟩, ?_⟩
      simp only [decodeDim]
      rw [decodeUpper_eq (fun x hx => (hchars x hx).1), hdec]
      omega

/-- Per-dimension encoded length: at most 2 letters, or at most 3 digits,
for indices up to 255 (`"iv"`, `"256"`, `"IV"`). -/
theorem encDim_length_le {m v : Nat} (hv : v ≤ MaxIndex) :
    (encDim m v).length ≤ if m = 1 then 3 else 2 := by
  have hv' : v ≤ 255 := hv
  match m with
  | 0 =>
    simpa [encDim, encodeLower] using
      encodeAlphaAux_length_le (b := 97) (k := 2) (by omega) le_rfl (by omega)
  | 1 =>
    simpa [encDim, encodeDigit] using
      encodeDigitAux_length_le (k := 3) (by omega) le_rfl (by omega)
  | (m + 2) =>
    simpa [encDim, encodeUpper] using
      encodeAlphaAux_length_le (b := 65) (k := 2) (by omega) le_rfl (by omega)

/-- `parseLoop` analogue of `validateLoop_step`: consume one legal maximal
run, write its decoded (`uint8`-truncated) value at index `d`. -/
theorem parseLoop_step {fuel d : Nat} {r rest arr : List Nat}
    (hr : GoodRun (d % 3) r)
    (hrest : ∀ h, rest.head? = some h → classPred (d % 3) h = false) :
    parseLoop (fuel + 1) (r ++ rest) d arr
      = parseLoop fuel rest (d + 1) (arr.set d ((decodeDim (d % 3) r % 256).toNat)) := by
  rcases r with _ | ⟨c, t⟩
  · exact absurd hr (by simp [GoodRun])
  · obtain ⟨hc, hz, ht⟩ := hr
    have hspan := takeWhile_append_all (p := classPred (d % 3)) ht hrest
    have hm3 : d % 3 = 0 ∨ d % 3 = 1 ∨ d % 3 = 2 := by omega
    rcases hm3 with hm | hm | hm <;> rw [hm] at hc hz ht hrest hspan <;>
      simp only [classPred] at hc ht hspan <;>
      simp only [parseLoop, List.cons_append, hm, List.append_eq, decodeDim] <;>
      rw [hspan.1, hspan.2, if_pos hc]

/-- The format-side loop invariant: encoding dimensions `i … i+k-1` of a
bounded source array yields a string that `validateLoop` accepts from
dimension `i` and that `parseLoop` decodes back into exactly those source
values. -/
theorem formatRange_spec :
    ∀ (k i : Nat) (src : List Nat), i + k ≤ 3 → src.length = 3 →
      (∀ j, i ≤ j → j < i + k → src.getD j 0 ≤ MaxIndex) →
      (∀ fuel, (formatRange src i k).length ≤ fuel →
        validateLoop fuel (formatRange src i k) i = none) ∧
      (∀ (dst : List Nat) fuel, dst.length = 3 →
        (formatRange src i k).length ≤ fuel →
        (parseLoop fuel (formatRange src i k) i dst).2 = i + k ∧
        ∀ j, j < 3 → (parseLoop fuel (formatRange src i k) i dst).1.getD j 0
          = if i ≤ j ∧ j < i + k then src.getD j 0 else dst.getD j 0) := by
  intro k
  induction k with
  | zero =>
    intro i src _ _ _
    constructor
    · intro fuel _
      simpa [formatRange] using validateLoop_nil fuel i
    · intro dst fuel _ _
      simp only [formatRange, parseLoop_nil]
      refine ⟨by omega, ?_⟩
      intro j _
      rw [if_neg (by omega)]
  | succ k ihk =>
    intro i src hik hsrc hbound
    have hi3 : i < 3 := by omega
    have hv : src.getD i 0 ≤ MaxIndex := hbound i le_rfl (by omega)
    have hm : i % 3 = i := Nat.mod_eq_of_lt hi3
    obtain ⟨hrun, hdec⟩ := encDim_spec (m := i % 3) (v := src.getD i 0) (by omega) hv
    have hrest : ∀ h, (formatRange src (i + 1) k).head? = some h →
        classPred (i % 3) h = false := by
      intro h hh
      rcases k with _ | k'
      · simp [formatRange] at hh
      · have hv' : src.getD (i + 1) 0 ≤ MaxIndex := hbound (i + 1) (by omega) (by omega)
        obtain ⟨hrun', _⟩ := encDim_spec (m := (i + 1) % 3) (v := src.getD (i + 1) 0)
          (by omega) hv'
        have hne : encDim ((i + 1) % 3) (src.getD (i + 1) 0) ≠ [] := by
          rcases hcase : encDim ((i + 1) % 3) (src.getD (i + 1) 0) with _ | _
          · rw [hcase] at hrun'
            exact absurd hrun' (by simp [GoodRun])
          · simp
        rw [show formatRange src (i + 1) (k' + 1)
              = encDim ((i + 1) % 3) (src.getD (i + 1) 0) ++ formatRange src (i + 2) k'
            from rfl] at hh
        rw [head?_append_left hne] at hh
        have := GoodRun_head hrun' h hh
        exact @classPred_ne ((i + 1) % 3) (i % 3) (by omega) (by omega)
          (by omega) _ this
    have hne : encDim (i % 3) (src.getD i 0) ≠ [] := by
      rcases hcase : encDim (i % 3) (src.getD i 0) with _ | _
      · rw [hcase] at hrun
        exact absurd hrun (by simp [GoodRun])
      · simp
    have hfr : formatRange src i (k + 1)
        = encDim (i % 3) (src.getD i 0) ++ formatRange src (i + 1) k := by
      simp only [formatRange]
    obtain ⟨ih1, ih2⟩ := ihk (i + 1) src (by omega) hsrc
      (fun j hj hj' => hbound j (by omega) (by omega))
    have hlen1 : 1 ≤ (encDim (i % 3) (src.getD i 0)).length := by
      rcases hcase : encDim (i % 3) (src.getD i 0) with _ | _
      · exact absurd hcase hne
      · simp
    have hv255 : src.getD i 0 ≤ 255 := hv
    constructor
    · intro fuel hfuel
      rw [hfr] at hfuel ⊢
      have hfuel2 := hfuel
      rw [List.length_append] at hfuel2
      obtain ⟨f, rfl⟩ : ∃ f, fuel = f + 1 := ⟨fuel - 1, by omega⟩
      rw [validateLoop_step hfuel hi3 hrun (by rw [hdec]; exact_mod_cast hv) hrest]
      apply ih1
      omega
    · intro dst fuel hdst hfuel
      rw [hfr] at hfuel ⊢
      have hfuel2 := hfuel
      rw [List.length_append] at hfuel2
      obtain ⟨f, rfl⟩ : ∃ f, fuel = f + 1 := ⟨fuel - 1, by omega⟩
      rw [parseLoop_step hrun hrest]
      have hval8 : ((decodeDim (i % 3) (encDim (i % 3) (src.getD i 0)) % 256).toNat)
          = src.getD i 0 := by
        rw [hdec, Int.emod_eq_of_lt (by omega) (by exact_mod_cast by omega)]
        simp
      rw [hval8]
      have hdst' : (dst.set i (src.getD i 0)).length = 3 := by simp [hdst]
      obtain ⟨p1, p2⟩ := ih2 (dst.set i (src.getD i 0)) f hdst' (by omega)
      refine ⟨by omega, ?_⟩
      intro j hj
      rw [p2 j hj]
      by_cases h1 : i + 1 ≤ j ∧ j < i + 1 + k
      · rw [if_pos h1, if_pos (by omega)]
      · rw [if_neg h1]
        by_cases h2 : j = i
        · subst h2
          rw [if_pos (by omega), getD_set_self (by omega)]
        · rw [if_neg (by omega), getD_set_ne (by omega)]

theorem parseLoop_length :
    ∀ (fuel : Nat) (s : List Nat) (d : Nat) (arr : List Nat),
      ((parseLoop fuel s d arr).1).length = arr.length := by
  intro fuel
  induction fuel with
  | zero => intro s d arr; simp [parseLoop]
  | succ f ih =>
    intro s d arr
    rcases s with _ | ⟨c, rest⟩
    · simp [parseLoop]
    · have hm3 : d % 3 = 0 ∨ d % 3 = 1 ∨ d % 3 = 2 := by omega
      rcases hm3 with hm | hm | hm <;> simp only [parseLoop, hm] <;> split <;>
        simp [ih]

theorem format_length_le {c : Coordinate} (h : ValidCoordinate c) :
    (format c).length ≤ MaxStringLen := by
  obtain ⟨hlen, hd1, hd3, hbound, _⟩ := h
  have h0 : (encDim 0 (c.indices.getD 0 0)).length ≤ 2 := by
    simpa using encDim_length_le (m := 0) (hbound 0 (by norm_num))
  have h1 : (encDim 1 (c.indices.getD 1 0)).length ≤ 3 := by
    simpa using encDim_length_le (m := 1) (hbound 1 (by norm_num))
  have h2 : (encDim 2 (c.indices.getD 2 0)).length ≤ 2 := by
    simpa using encDim_length_le (m := 2) (hbound 2 (by norm_num))
  have hdd : c.dims = 1 ∨ c.dims = 2 ∨ c.dims = 3 := by
    simp [MaxDimensions] at hd3
    omega
  have e1 : formatRange c.indices 0 1 = encDim 0 (c.indices.getD 0 0) ++ [] := rfl
  have e2 : formatRange c.indices 0 2
      = encDim 0 (c.indices.getD 0 0) ++ (encDim 1 (c.indices.getD 1 0) ++ []) := rfl
  have e3 : formatRange c.indices 0 3
      = encDim 0 (c.indices.getD 0 0) ++ (encDim 1 (c.indices.getD 1 0)
          ++ (encDim 2 (c.indices.getD 2 0) ++ [])) := rfl
  unfold format
  rcases hdd with hdd | hdd | hdd <;> rw [hdd]
  · rw [e1]
    simp only [List.length_append, List.length_nil, MaxStringLen]
    omega
  · rw [e2]
    simp only [List.length_append, List.length_nil, MaxStringLen]
    omega
  · rw [e3]
    simp only [List.length_append, List.length_nil, MaxStringLen]
    omega

theorem list3_ext {l1 l2 : List Nat} (h1 : l1.length = 3) (h2 : l2.length = 3)
    (h : ∀ j, j < 3 → l1.getD j 0 = l2.getD j 0) : l1 = l2 := by
  rcases l1 with _ | ⟨a0, _ | ⟨a1, _ | ⟨a2, arest⟩⟩⟩ <;> simp at h1
  rcases l2 with _ | ⟨b0, _ | ⟨b1, _ | ⟨b2, brest⟩⟩⟩ <;> simp at h2
  have e0 := h 0 (by norm_num)
  have e1 := h 1 (by norm_num)
  have e2 := h 2 (by norm_num)
  simp [List.getD] at e0 e1 e2
  subst h1
  subst h2
  simp [e0, e1, e2]

/-- **C2.** For every valid `Coordinate` `c` (1–3 dimensions, `uint8`
indices, zero-filled unused slots), parsing its string form succeeds and
returns a coordinate structurally equal to `c`:
`Parse (format c) = some c`. -/
theorem roundtrip_coord_to_coord (c : Coordinate) (h : ValidCoordinate c) :
    Parse (format c) = some c := by
  obtain ⟨hlen, hd1, hd3, hbound, hpad⟩ := h
  have hd3' : c.dims ≤ 3 := hd3
  obtain ⟨V, P⟩ := formatRange_spec c.dims 0 c.indices (by omega) hlen
    (fun j _ hj => hbound j (by omega))
  obtain ⟨k', hk⟩ : ∃ k', c.dims = k' + 1 := ⟨c.dims - 1, by omega⟩
  have hv0 : c.indices.getD 0 0 ≤ MaxIndex := hbound 0 (by norm_num)
  obtain ⟨hrun0, _⟩ := encDim_spec (m := 0) (by norm_num) hv0
  rcases henc0 : encDim 0 (c.indices.getD 0 0) with _ | ⟨ch, ct⟩
  · rw [henc0] at hrun0
    exact absurd hrun0 (by simp [GoodRun])
  have hch : isLower ch = true := by
    rw [henc0] at hrun0
    exact hrun0.1
  have hform : format c = ch :: (ct ++ formatRange c.indices 1 k') := by
    unfold format
    rw [hk]
    simp only [formatRange]
    rw [show (0 : Nat) % 3 = 0 from rfl, henc0]
    simp
  have hlen7 : (format c).length ≤ MaxStringLen :=
    format_length_le ⟨hlen, hd1, hd3, hbound, hpad⟩
  have hvalidate : validate (format c) = none := by
    rw [hform]
    rw [hform] at hlen7
    simp only [validate]
    rw [if_neg (by omega), if_pos hch, ← hform]
    show validateLoop (format c).length (format c) 0 = none
    unfold format
    exact V _ le_rfl
  rw [Parse, hvalidate]
  obtain ⟨p1, p2⟩ := P [0, 0, 0] (format c).length rfl (by unfold format; exact le_rfl)
  have hres : parse (format c)
      = ⟨(parseLoop (format c).length (format c) 0 [0, 0, 0]).1,
         (parseLoop (format c).length (format c) 0 [0, 0, 0]).2 % 256⟩ := rfl
  unfold format at hres p1 p2 ⊢
  rw [hres, p1]
  have harr : (parseLoop (formatRange c.indices 0 c.dims).length
      (formatRange c.indices 0 c.dims) 0 [0, 0, 0]).1 = c.indices := by
    apply list3_ext (by rw [parseLoop_length]; rfl) hlen
    intro j hj
    rw [p2 j hj]
    by_cases hcase : 0 ≤ j ∧ j < 0 + c.dims
    · rw [if_pos hcase]
    · rw [if_neg hcase]
      have hj2 : c.dims ≤ j := by omega
      rw [hpad j hj2 hj]
      interval_cases j <;> rfl
  rw [harr]
  have hmod2 : (0 + c.dims) % 256 = c.dims := by omega
  rw [hmod2]

/-- Witness for C2 at the concrete coordinate `(4, 3)` (the cell `"e4"`). -/
theorem roundtrip_coord_to_coord_witness :
    Parse (format ⟨[4, 3, 0], 2⟩) = some ⟨[4, 3, 0], 2⟩ := by
  apply roundtrip_coord_to_coord
  refine ⟨rfl, by norm_num, by decide, ?_, ?_⟩
  · intro i hi
    interval_cases i <;> decide
  · intro i h2 h3
    have h2' : 2 ≤ i := h2
    have hi : i = 2 := by omega
    subst hi
    decide

/-! ## Claim C7: the dimension-limit check precedes the class check -/

theorem GoodRun_ne_nil {m : Nat} {r : List Nat} (h : GoodRun m r) : r ≠ [] := by
  rcases r with _ | _
  · exact absurd h (by simp [GoodRun])
  · simp

theorem validate_eq_loop {s : List Nat} (hne : s ≠ []) (hlen : s.length ≤ MaxStringLen)
    (hhead : ∀ h, s.head? = some h → isLower h = true) :
    validate s = validateLoop s.length s 0 := by
  rcases s with _ | ⟨c, t⟩
  · exact absurd rfl hne
  · simp only [validate]
    rw [if_neg (by omega), if_pos (hhead c rfl)]

/-- Once three legal, in-range, maximal runs have been consumed and input
remains (its next byte `x` not extending the third run), the scanner reaches
dimension 3 and fails with `TooManyDims` — before ever looking at the class
of `x`.  The `MaxStringLen` hypothesis is required: longer inputs fail the
earlier whole-string length check instead. -/
theorem validateLoop_fourth_run
    (r0 r1 r2 : List Nat) (x : Nat) (rest : List Nat)
    (h0 : GoodRun 0 r0) (hb0 : decodeDim 0 r0 ≤ (MaxIndex : Int))
    (h1 : GoodRun 1 r1) (hb1 : decodeDim 1 r1 ≤ (MaxIndex : Int))
    (h2 : GoodRun 2 r2) (hb2 : decodeDim 2 r2 ≤ (MaxIndex : Int))
    (hx : isUpper x = false)
    (hlen : (r0 ++ (r1 ++ (r2 ++ x :: rest))).length ≤ MaxStringLen) :
    validate (r0 ++ (r1 ++ (r2 ++ x :: rest))) = some .tooManyDims := by
  rcases r0 with _ | ⟨c0, t0⟩
  · exact absurd h0 (by simp [GoodRun])
  rcases r1 with _ | ⟨c1, t1⟩
  · exact absurd h1 (by simp [GoodRun])
  rcases r2 with _ | ⟨c2, t2⟩
  · exact absurd h2 (by simp [GoodRun])
  have LBIG : ((c0 :: t0) ++ ((c1 :: t1) ++ ((c2 :: t2) ++ x :: rest))).length
      = t0.length + t1.length + t2.length + rest.length + 4 := by
    simp
    omega
  have hb01 : ∀ h, ((c1 :: t1) ++ ((c2 :: t2) ++ x :: rest)).head? = some h →
      classPred (0 % 3) h = false := by
    intro h hh
    simp [List.cons_append] at hh
    subst hh
    exact classPred_ne (m := 1) (by norm_num) (by norm_num) (by norm_num) h1.1
  have hb12 : ∀ h, ((c2 :: t2) ++ x :: rest).head? = some h →
      classPred (1 % 3) h = false := by
    intro h hh
    simp [List.cons_append] at hh
    subst hh
    exact classPred_ne (m := 2) (by norm_num) (by norm_num) (by norm_num) h2.1
  have hb2x : ∀ h, (x :: rest).head? = some h → classPred (2 % 3) h = false := by
    intro h hh
    simp at hh
    subst hh
    exact hx
  rw [validate_eq_loop (by simp) hlen
    (fun h hh => by simp [List.cons_append] at hh; subst hh; exact h0.1)]
  rw [LBIG]
  rw [show t0.length + t1.length + t2.length + rest.length + 4
      = (t0.length + t1.length + t2.length + rest.length + 3) + 1 from by omega]
  rw [validateLoop_step (by simp; omega) (by norm_num) h0 hb0 hb01]
  rw [show t0.length + t1.length + t2.length + rest.length + 3
      = (t0.length + t1.length + t2.length + rest.length + 2) + 1 from by omega]
  rw [validateLoop_step (by simp; omega) (by norm_num) h1 hb1 hb12]
  rw [show t0.length + t1.length + t2.length + rest.length + 2
      = (t0.length + t1.length + t2.length + rest.length + 1) + 1 from by omega]
  rw [validateLoop_step (by simp; omega) (by norm_num) h2 hb2 hb2x]
  rw [show t0.length + t1.length + t2.length + rest.length + 1
      = (t0.length + t1.length + t2.length + rest.length) + 1 from by omega]
  exact validateLoop_tooMany le_rfl

/-- **C7 counterexample.** The claim as stated fails: `"a1A1A1A1"` is a
string whose fourth run begins, yet `validate` returns `ErrInputTooLong`
(the whole-string length check fires first), not `ErrTooManyDims`. -/
theorem tooManyDims_counterexample :
    validate [97, 49, 65, 49, 65, 49, 65, 49] = some CellErr.inputTooLong ∧
    some CellErr.inputTooLong ≠ some CellErr.tooManyDims := by
  decide

/-- **C7 (amended).** For strings within `MaxStringLen`, when unconsumed
input remains after the third dimension the dimension-limit check fires
before the character-class check: `validate "a1A1" = ErrTooManyDims`, and
every string of length at most 7 formed of three legal bounded runs followed
by a byte that does not extend the third (uppercase) run fails with
`ErrTooManyDims` regardless of that byte's class.  (Strings longer than 7
fail earlier with `ErrInputTooLong`.) -/
theorem tooManyDims_before_class :
    validate [97, 49, 65, 49] = some CellErr.tooManyDims ∧
    ∀ (r0 r1 r2 : List Nat) (x : Nat) (rest : List Nat),
      GoodRun 0 r0 → decodeDim 0 r0 ≤ (MaxIndex : Int) →
      GoodRun 1 r1 → decodeDim 1 r1 ≤ (MaxIndex : Int) →
      GoodRun 2 r2 → decodeDim 2 r2 ≤ (MaxIndex : Int) →
      isUpper x = false →
      (r0 ++ (r1 ++ (r2 ++ x :: rest))).length ≤ MaxStringLen →
      validate (r0 ++ (r1 ++ (r2 ++ x :: rest))) = some CellErr.tooManyDims := by
  refine ⟨by decide, ?_⟩
  intro r0 r1 r2 x rest h0 hb0 h1 hb1 h2 hb2 hx hlen
  exact validateLoop_fourth_run r0 r1 r2 x rest h0 hb0 h1 hb1 h2 hb2 hx hlen

/-- Witness for C7 at `"a1Ab"` (fourth run begins with a lowercase byte). -/
theorem tooManyDims_before_class_witness :
    validate ([97] ++ ([49] ++ ([65] ++ 98 :: []))) = some CellErr.tooManyDims :=
  tooManyDims_before_class.2 [97] [49] [65] 98 []
    (by simp [GoodRun, classPred, isLower]) (by decide)
    (by simp [GoodRun, classPred, isDigit]) (by decide)
    (by simp [GoodRun, classPred, isUpper]) (by decide)
    (by decide) (by decide)

/-! ## Claim C5: the rejection table of `validate`. -/

/-- **C5.** `validate` fails with exactly the stated kind on each listed
input: `"" ` → EmptyInput; `"1a"` → InvalidStart; `"a0"` → LeadingZero;
`"iw"` → IndexOutOfRange (letters decode to 256); `"a257"` →
IndexOutOfRange; `"aA"` → UnexpectedChar; `"a1a"` → UnexpectedChar. -/
theorem validate_rejection_table :
    validate [] = some .emptyInput ∧
    validate [49, 97] = some .invalidStart ∧
    validate [97, 48] = some .leadingZero ∧
    validate [105, 119] = some .indexOutOfRange ∧
    validate [97, 50, 53, 55] = some .indexOutOfRange ∧
    validate [97, 65] = some .unexpectedChar ∧
    validate [97, 49, 97] = some .unexpectedChar := by
  decide

/-! ## Claim C9: construction guards of `NewCoordinate`. -/

/-- **C9.** Construction from an explicit index list fails closed: the empty
sequence is rejected, more than `MaxDimensions = 3` indices are rejected,
and a sequence containing an element above `MaxIndex = 255` (here
`[256, 0]`) is rejected — in each case no `Coordinate` is produced. -/
theorem NewCoordinate_guards :
    NewCoordinate [] = none ∧
    NewCoordinate [1, 2, 3, 4] = none ∧
    NewCoordinate [256, 0] = none := by
  decide

/-! ## The components variant: regular-expression semantics (claim C3)

`cellRegex = ^[a-z]+(?:[1-9][0-9]*[A-Z]+[a-z]+)*(?:[1-9][0-9]*[A-Z]*)?$`.
The AST below is that regex; `RMatch` is standard regular-expression
matching (anchored: the whole string is matched). -/

inductive RE where
  | eps
  | cls (lo hi : Nat)
  | cat (a b : RE)
  | alt (a b : RE)
  | star (a : RE)

inductive RMatch : RE → List Nat → Prop where
  | eps : RMatch .eps []
  | cls {lo hi c : Nat} : lo ≤ c → c ≤ hi → RMatch (.cls lo hi) [c]
  | cat {a b : RE} {xs ys : List Nat} :
      RMatch a xs → RMatch b ys → RMatch (.cat a b) (xs ++ ys)
  | altL {a b : RE} {xs : List Nat} : RMatch a xs → RMatch (.alt a b) xs
  | altR {a b : RE} {xs : List Nat} : RMatch b xs → RMatch (.alt a b) xs
  | starNil {a : RE} : RMatch (.star a) []
  | starCons {a : RE} {xs ys : List Nat} :
      RMatch a xs → RMatch (.star a) ys → RMatch (.star a) (xs ++ ys)

def lowerPlus : RE := .cat (.cls 97 122) (.star (.cls 97 122))

def digitsRE : RE := .cat (.cls 49 57) (.star (.cls 48 57))

def upperPlus : RE := .cat (.cls 65 90) (.star (.cls 65 90))

def upperStar : RE := .star (.cls 65 90)

def blockRE : RE := .cat digitsRE (.cat upperPlus lowerPlus)

def tailRE : RE := .alt (.cat digitsRE upperStar) .eps

def cellRe : RE := .cat lowerPlus (.cat (.star blockRE) tailRE)

/-- The components-variant `Valid`: nonempty, no `\r`/`\n`, and a full-string
match of `cellRegex`. -/
def ComponentsValid (s : List Nat) : Prop :=
  s ≠ [] ∧ noCRLF s ∧ RMatch cellRe s

/-- Star elimination: induction over the iterations of a `star` match. -/
theorem rmatch_star_elim {a : RE} {P : List Nat → Prop}
    (h0 : P [])
    (h1 : ∀ xs ys, RMatch a xs → RMatch (.star a) ys → P ys → P (xs ++ ys)) :
    ∀ {s : List Nat}, RMatch (.star a) s → P s := by
  have key : ∀ (r : RE) (s : List Nat), RMatch r s → r = .star a → P s := by
    intro r s h
    induction h with
    | eps => intro he; exact RE.noConfusion he
    | cls _ _ => intro he; exact RE.noConfusion he
    | cat _ _ _ _ => intro he; exact RE.noConfusion he
    | altL _ _ => intro he; exact RE.noConfusion he
    | altR _ _ => intro he; exact RE.noConfusion he
    | starNil => intro _; exact h0
    | starCons hx hy _ ihy =>
      intro he
      injection he with ha
      subst ha
      exact h1 _ _ hx hy (ihy rfl)
  exact fun {s} h => key _ s h rfl

theorem star_cls_iff {lo hi : Nat} {s : List Nat} :
    RMatch (.star (.cls lo hi)) s ↔ ∀ c ∈ s, lo ≤ c ∧ c ≤ hi := by
  constructor
  · apply rmatch_star_elim (P := fun s => ∀ c ∈ s, lo ≤ c ∧ c ≤ hi)
    · simp
    · intro xs ys hx _ hy c hc
      rcases List.mem_append.1 hc with hc | hc
      · cases hx with
        | cls h1 h2 =>
          simp at hc
          subst hc
          exact ⟨h1, h2⟩
      · exact hy c hc
  · intro h
    induction s with
    | nil => exact .starNil
    | cons c t ih =>
      rw [show c :: t = [c] ++ t from rfl]
      exact .starCons (.cls (h c (by simp)).1 (h c (by simp)).2)
        (ih fun x hx => h x (by simp [hx]))

theorem plus_cls_iff {lo hi : Nat} {s : List Nat} :
    RMatch (.cat (.cls lo hi) (.star (.cls lo hi))) s ↔
      s ≠ [] ∧ ∀ c ∈ s, lo ≤ c ∧ c ≤ hi := by
  constructor
  · intro h
    cases h with
    | cat hx hy =>
      cases hx with
      | cls h1 h2 =>
        refine ⟨by simp, ?_⟩
        intro c hc
        rcases List.mem_append.1 hc with hc | hc
        · simp at hc
          subst hc
          exact ⟨h1, h2⟩
        · exact star_cls_iff.1 hy c hc
  · rintro ⟨hne, hall⟩
    rcases s with _ | ⟨c, t⟩
    · exact absurd rfl hne
    · rw [show c :: t = [c] ++ t from rfl]
      exact .cat (.cls (hall c (by simp)).1 (hall c (by simp)).2)
        (star_cls_iff.2 fun x hx => hall x (by simp [hx]))

theorem digitsRE_iff {s : List Nat} :
    RMatch digitsRE s ↔
      ∃ c t, s = c :: t ∧ 49 ≤ c ∧ c ≤ 57 ∧ ∀ x ∈ t, 48 ≤ x ∧ x ≤ 57 := by
  constructor
  · intro h
    cases h with
    | cat hx hy =>
      cases hx with
      | cls h1 h2 => exact ⟨_, _, rfl, h1, h2, star_cls_iff.1 hy⟩
  · rintro ⟨c, t, rfl, h1, h2, ht⟩
    rw [show c :: t = [c] ++ t from rfl]
    exact .cat (.cls h1 h2) (star_cls_iff.2 ht)

/-! GoodRun in terms of byte ranges. -/

theorem GoodRun_zero_iff {r : List Nat} :
    GoodRun 0 r ↔ r ≠ [] ∧ ∀ c ∈ r, 97 ≤ c ∧ c ≤ 122 := by
  rcases r with _ | ⟨c, t⟩
  · simp [GoodRun]
  · constructor
    · intro h
      obtain ⟨hc, _, ht⟩ := h
      refine ⟨by simp, ?_⟩
      intro x hx
      rcases hx with _ | hx
      · exact isLower_iff.1 hc
      · exact isLower_iff.1 (ht x (by assumption))
    · rintro ⟨_, hall⟩
      exact ⟨isLower_iff.2 (hall c (by simp)), fun h => absurd h (by decide),
        fun x hx => isLower_iff.2 (hall x (by simp [hx]))⟩

theorem GoodRun_one_iff {r : List Nat} :
    GoodRun 1 r ↔
      ∃ c t, r = c :: t ∧ 49 ≤ c ∧ c ≤ 57 ∧ ∀ x ∈ t, 48 ≤ x ∧ x ≤ 57 := by
  rcases r with _ | ⟨c, t⟩
  · simp [GoodRun]
  · constructor
    · intro h
      obtain ⟨hc, hz, ht⟩ := h
      have h1 := isDigit_iff.1 hc
      have h48 : c ≠ 48 := hz rfl
      exact ⟨c, t, rfl, by omega, by omega,
        fun x hx => isDigit_iff.1 (ht x hx)⟩
    · rintro ⟨c', t', heq, h1, h2, ht⟩
      injection heq with e1 e2
      subst e1
      subst e2
      exact ⟨isDigit_iff.2 ⟨by omega, h2⟩, fun _ => by omega,
        fun x hx => isDigit_iff.2 (ht x hx)⟩

theorem GoodRun_two_iff {r : List Nat} :
    GoodRun 2 r ↔ r ≠ [] ∧ ∀ c ∈ r, 65 ≤ c ∧ c ≤ 90 := by
  rcases r with _ | ⟨c, t⟩
  · simp [GoodRun]
  · constructor
    · intro h
      obtain ⟨hc, _, ht⟩ := h
      refine ⟨by simp, ?_⟩
      intro x hx
      rcases hx with _ | hx
      · exact isUpper_iff.1 hc
      · exact isUpper_iff.1 (ht x (by assumption))
    · rintro ⟨_, hall⟩
      exact ⟨isUpper_iff.2 (hall c (by simp)), fun h => absurd h (by decide),
        fun x hx => isUpper_iff.2 (hall x (by simp [hx]))⟩

/-! The cyclic-runs decomposition. -/

inductive CycRuns : Nat → List Nat → Prop where
  | nil (d : Nat) : CycRuns d []
  | cons {d : Nat} {r rest : List Nat} :
      GoodRun (d % 3) r → CycRuns (d + 1) rest → CycRuns d (r ++ rest)

theorem CycRuns_mod : ∀ {d s}, CycRuns d s → ∀ d', d % 3 = d' % 3 → CycRuns d' s := by
  intro d s h
  induction h with
  | nil => intro d' _; exact .nil d'
  | cons hr _ ih =>
    intro d' hm
    exact .cons (hm ▸ hr) (ih _ (by omega))

theorem CycRuns_cons_inv {d : Nat} {s : List Nat} (h : CycRuns d s) (hne : s ≠ []) :
    ∃ r rest, s = r ++ rest ∧ GoodRun (d % 3) r ∧ CycRuns (d + 1) rest := by
  cases h with
  | nil => exact absurd rfl hne
  | cons hr hrest => exact ⟨_, _, rfl, hr, hrest⟩

theorem CycRuns_head {d : Nat} {s : List Nat} (h : CycRuns d s) :
    ∀ hh, s.head? = some hh → classPred (d % 3) hh = true := by
  intro hh hsh
  have hne : s ≠ [] := by
    rcases s with _ | _
    · simp at hsh
    · simp
  obtain ⟨r, rest, heq, hr, _⟩ := CycRuns_cons_inv h hne
  rcases r with _ | ⟨c, t⟩
  · exact absurd hr (by simp [GoodRun])
  · subst heq
    simp [List.cons_append] at hsh
    subst hsh
    exact hr.1

/-! Regex ⇒ cyclic runs. -/

theorem tailRE_cyc {d : Nat} {t : List Nat} (hm : d % 3 = 1)
    (h : RMatch tailRE t) : CycRuns d t := by
  cases h with
  | altR h =>
    cases h
    exact .nil d
  | altL h =>
    cases h with
    | cat hd hu =>
      refine .cons (r := _) ?_ ?_
      · rw [hm]
        obtain ⟨c, t', rfl, h1, h2, ht⟩ := digitsRE_iff.1 hd
        exact GoodRun_one_iff.2 ⟨c, t', rfl, h1, h2, ht⟩
      · rename_i ys
        rcases hys : ys with _ | ⟨u, us⟩
        · exact .nil _
        · rw [← List.append_nil (u :: us)]
          refine .cons ?_ (.nil _)
          have hall := star_cls_iff.1 hu
          rw [hys] at hall
          have : (d + 1) % 3 = 2 := by omega
          rw [this]
          exact GoodRun_two_iff.2 ⟨by simp, hall⟩

theorem starBlock_cyc {m : List Nat} (h : RMatch (.star blockRE) m) :
    ∀ (d : Nat) (t : List Nat), d % 3 = 1 → CycRuns d t → CycRuns d (m ++ t) := by
  refine rmatch_star_elim
    (P := fun m => ∀ (d : Nat) (t : List Nat), d % 3 = 1 → CycRuns d t → CycRuns d (m ++ t))
    ?_ ?_ h
  · intro d t _ ht
    simpa using ht
  · intro xs ys hblock _ ihys d t hm ht
    cases hblock with
    | @cat _ _ dxs rest2 hd hrest =>
      cases hrest with
      | @cat _ _ uxs lxs hu hl =>
        have hassoc : ((dxs ++ (uxs ++ lxs)) ++ ys) ++ t
            = dxs ++ (uxs ++ (lxs ++ (ys ++ t))) := by
          simp [List.append_assoc]
        rw [hassoc]
        refine .cons ?_ (.cons ?_ (.cons ?_ ?_))
        · rw [hm]
          obtain ⟨c, t', rfl, h1, h2, ht'⟩ := digitsRE_iff.1 hd
          exact GoodRun_one_iff.2 ⟨c, t', rfl, h1, h2, ht'⟩
        · have : (d + 1) % 3 = 2 := by omega
          rw [this]
          obtain ⟨hne, hall⟩ := plus_cls_iff.1 hu
          exact GoodRun_two_iff.2 ⟨hne, hall⟩
        · have : (d + 1 + 1) % 3 = 0 := by omega
          rw [this]
          obtain ⟨hne, hall⟩ := plus_cls_iff.1 hl
          exact GoodRun_zero_iff.2 ⟨hne, hall⟩
        · exact ihys (d + 3) t (by omega) (CycRuns_mod ht (d + 3) (by omega))

theorem rmatch_cellRe_imp {s : List Nat} (h : RMatch cellRe s) :
    s ≠ [] ∧ CycRuns 0 s := by
  cases h with
  | @cat _ _ l rest hl hrest =>
    cases hrest with
    | @cat _ _ m t hm ht =>
      obtain ⟨hlne, hlall⟩ := plus_cls_iff.1 hl
      have hcyc_t : CycRuns 1 t := tailRE_cyc (by norm_num) ht
      have hcyc_mt : CycRuns 1 (m ++ t) := starBlock_cyc hm 1 t (by norm_num) hcyc_t
      refine ⟨?_, ?_⟩
      · rcases l with _ | ⟨x, xs⟩
        · exact absurd rfl hlne
        · simp
      · have hg : GoodRun (0 % 3) l := by
          rw [show (0 : Nat) % 3 = 0 from rfl]
          exact GoodRun_zero_iff.2 ⟨hlne, hlall⟩
        exact .cons hg hcyc_mt

/-! Cyclic runs ⇒ regex. -/

theorem cyc_imp_rmatch_tail :
    ∀ (n : Nat) (s : List Nat), s.length ≤ n → CycRuns 1 s →
      RMatch (.cat (.star blockRE) tailRE) s := by
  intro n
  induction n with
  | zero =>
    intro s hlen _
    have : s = [] := List.eq_nil_of_length_eq_zero (by omega)
    subst this
    exact .cat .starNil (.altR .eps)
  | succ n ih =>
    intro s hlen hcyc
    rcases hs : s with _ | ⟨c, srest⟩
    · exact .cat .starNil (.altR .eps)
    · subst hs
      obtain ⟨r1, rest2, heq, hg1, hc2⟩ := CycRuns_cons_inv hcyc (by simp)
      obtain ⟨d1, dt1, rfl, hd11, hd12, hd13⟩ := GoodRun_one_iff.1 hg1
      have hdm1 : RMatch digitsRE (d1 :: dt1) := digitsRE_iff.2 ⟨d1, dt1, rfl, hd11, hd12, hd13⟩
      rcases rest2 with _ | ⟨c2, rest2'⟩
      · -- only a digit run remains: the optional tail with an empty upper part
        rw [heq]
        rw [← List.nil_append ((d1 :: dt1) ++ [])]
        exact .cat .starNil (.altL (.cat hdm1 .starNil))
      · obtain ⟨r2, rest3, heq2, hg2, hc3⟩ := CycRuns_cons_inv hc2 (by simp)
        obtain ⟨hr2ne, hr2all⟩ := GoodRun_two_iff.1 (by simpa using hg2)
        have hum : RMatch upperStar r2 := star_cls_iff.2 hr2all
        rcases rest3 with _ | ⟨c3, rest3'⟩
        · -- digit run + upper run: the optional tail with a nonempty upper part
          rw [heq, heq2]
          rw [List.append_nil]
          rw [← List.nil_append ((d1 :: dt1) ++ r2)]
          exact .cat .starNil (.altL (.cat hdm1 hum))
        · obtain ⟨r3, rest4, heq3, hg3, hc4⟩ := CycRuns_cons_inv hc3 (by simp)
          obtain ⟨hr3ne, hr3all⟩ := GoodRun_zero_iff.1 (by simpa using hg3)
          have hlm : RMatch lowerPlus r3 := plus_cls_iff.2 ⟨hr3ne, hr3all⟩
          have hupm : RMatch upperPlus r2 := plus_cls_iff.2 ⟨hr2ne, hr2all⟩
          have hcyc4 : CycRuns 1 rest4 := CycRuns_mod hc4 1 (by omega)
          have hlen4 : rest4.length ≤ n := by
            have e1 := congrArg List.length heq
            have e2 := congrArg List.length heq2
            have e3 := congrArg List.length heq3
            simp at e1 e2 e3 hlen
            have hr2l : 1 ≤ r2.length := by
              rcases r2 with _ | _
              · exact absurd rfl hr2ne
              · simp
            have hr3l : 1 ≤ r3.length := by
              rcases r3 with _ | _
              · exact absurd rfl hr3ne
              · simp
            omega
          have hrec := ih rest4 hlen4 hcyc4
          cases hrec with
          | cat hstar htail =>
            rename_i b4 t4
            have hblock : RMatch blockRE ((d1 :: dt1) ++ (r2 ++ r3)) :=
              .cat hdm1 (.cat hupm hlm)
            have hstar' : RMatch (.star blockRE) (((d1 :: dt1) ++ (r2 ++ r3)) ++ b4) :=
              .starCons hblock hstar
            have hfinal := RMatch.cat hstar' htail
            have hassoc : ((((d1 :: dt1) ++ (r2 ++ r3)) ++ b4) ++ t4)
                = (d1 :: dt1) ++ (r2 ++ (r3 ++ (b4 ++ t4))) := by
              simp [List.append_assoc]
            rw [hassoc] at hfinal
            rw [heq, heq2, heq3]
            exact hfinal

theorem rmatch_cellRe_of_cyc {s : List Nat} (hne : s ≠ []) (h : CycRuns 0 s) :
    RMatch cellRe s := by
  obtain ⟨r0, rest, heq, hr0, hrest⟩ := CycRuns_cons_inv h hne
  obtain ⟨hr0ne, hr0all⟩ := GoodRun_zero_iff.1 (by simpa using hr0)
  rw [heq]
  exact .cat (plus_cls_iff.2 ⟨hr0ne, hr0all⟩)
    (cyc_imp_rmatch_tail rest.length rest le_rfl hrest)

/-- The components-variant regex matches exactly the strings that decompose
into a nonempty sequence of cyclic-class runs. -/
theorem rmatch_cellRe_iff {s : List Nat} :
    RMatch cellRe s ↔ (s ≠ [] ∧ CycRuns 0 s) :=
  ⟨rmatch_cellRe_imp, fun ⟨hne, h⟩ => rmatch_cellRe_of_cyc hne h⟩

/-! The greedy run scanner (no bounds, no dimension cap): the computable
side of `CycRuns`.  `splitRuns` is the run decomposition of a string;
`boundedRuns` checks the per-run index bound of the bounded profile. -/

def cycValid : Nat → List Nat → Nat → Bool
  | 0, s, _ => s.isEmpty
  | _ + 1, [], _ => true
  | fuel + 1, c :: rest, d =>
    if d % 3 = 1 ∧ c = 48 then false
    else if classPred (d % 3) c then
      cycValid fuel (rest.dropWhile (classPred (d % 3))) (d + 1)
    else false

def splitRuns : Nat → List Nat → Nat → List (List Nat)
  | 0, _, _ => []
  | _ + 1, [], _ => []
  | fuel + 1, c :: rest, d =>
    if classPred (d % 3) c then
      (c :: rest.takeWhile (classPred (d % 3)))
        :: splitRuns fuel (rest.dropWhile (classPred (d % 3))) (d + 1)
    else []

def boundedRuns : List (List Nat) → Nat → Bool
  | [], _ => true
  | r :: rs, d => decide (decodeDim (d % 3) r ≤ (MaxIndex : Int)) && boundedRuns rs (d + 1)

theorem cycValid_of_cycRuns :
    ∀ {d : Nat} {s : List Nat}, CycRuns d s →
      ∀ fuel, s.length ≤ fuel → cycValid fuel s d = true := by
  intro d s h
  induction h with
  | nil => intro fuel _; cases fuel <;> simp [cycValid]
  | @cons d r rest hr hrest ih =>
    intro fuel hf
    rcases r with _ | ⟨c, t⟩
    · exact absurd hr (by simp [GoodRun])
    · obtain ⟨hc, hz, ht⟩ := hr
      have hb : ∀ h, rest.head? = some h → classPred (d % 3) h = false := by
        intro h hh
        have := CycRuns_head hrest h hh
        exact classPred_ne (m := (d + 1) % 3) (by omega) (by omega) (by omega) this
      have hspan := takeWhile_append_all ht hb
      have hlen : ((c :: t) ++ rest).length = t.length + rest.length + 1 := by simp
      obtain ⟨f, rfl⟩ : ∃ f, fuel = f + 1 := ⟨fuel - 1, by omega⟩
      show cycValid (f + 1) (c :: (t ++ rest)) d = true
      have hnz : ¬ (d % 3 = 1 ∧ c = 48) := by
        rintro ⟨hm1, hc48⟩
        exact hz hm1 hc48
      rw [cycValid, if_neg hnz, if_pos hc, hspan.2]
      exact ih f (by omega)

theorem cycRuns_of_cycValid :
    ∀ (fuel : Nat) (s : List Nat) (d : Nat), s.length ≤ fuel →
      cycValid fuel s d = true → CycRuns d s := by
  intro fuel
  induction fuel with
  | zero =>
    intro s d hlen _
    have : s = [] := List.eq_nil_of_length_eq_zero (by omega)
    subst this
    exact .nil d
  | succ f ih =>
    intro s d hlen hv
    rcases s with _ | ⟨c, rest⟩
    · exact .nil d
    · rw [cycValid] at hv
      by_cases hnz : d % 3 = 1 ∧ c = 48
      · rw [if_pos hnz] at hv
        exact Bool.noConfusion hv
      · rw [if_neg hnz] at hv
        by_cases hc : classPred (d % 3) c = true
        · rw [if_pos hc] at hv
          have hgood : GoodRun (d % 3) (c :: rest.takeWhile (classPred (d % 3))) :=
            ⟨hc, fun hm1 hc48 => hnz ⟨hm1, hc48⟩, fun x hx => List.mem_takeWhile_imp hx⟩
          have hlen' : (rest.dropWhile (classPred (d % 3))).length ≤ f := by
            have := length_dropWhile_le' (classPred (d % 3)) rest
            simp at hlen
            omega
          have hrec := ih _ _ hlen' hv
          have := CycRuns.cons hgood hrec
          rwa [show (c :: rest.takeWhile (classPred (d % 3)))
              ++ rest.dropWhile (classPred (d % 3)) = c :: rest by
            simp [List.takeWhile_append_dropWhile]] at this
        · rw [if_neg (by simpa using hc)] at hv
          exact Bool.noConfusion hv

/-- Total length of the runs: the scanner consumes the whole string. -/
theorem splitRuns_length_sum :
    ∀ (fuel : Nat) (s : List Nat) (d : Nat), s.length ≤ fuel →
      cycValid fuel s d = true →
      ((splitRuns fuel s d).map List.length).sum = s.length := by
  intro fuel
  induction fuel with
  | zero =>
    intro s d hlen _
    have : s = [] := List.eq_nil_of_length_eq_zero (by omega)
    subst this
    simp [splitRuns]
  | succ f ih =>
    intro s d hlen hv
    rcases s with _ | ⟨c, rest⟩
    · simp [splitRuns]
    · rw [cycValid] at hv
      by_cases hnz : d % 3 = 1 ∧ c = 48
      · rw [if_pos hnz] at hv
        exact Bool.noConfusion hv
      · rw [if_neg hnz] at hv
        by_cases hc : classPred (d % 3) c = true
        · rw [if_pos hc] at hv
          rw [splitRuns, if_pos hc]
          have hlen' : (rest.dropWhile (classPred (d % 3))).length ≤ f := by
            have := length_dropWhile_le' (classPred (d % 3)) rest
            simp at hlen
            omega
          have hrec := ih _ _ hlen' hv
          simp only [List.map_cons, List.sum_cons]
          rw [hrec]
          have hsplit := congrArg List.length
            (List.takeWhile_append_dropWhile (p := classPred (d % 3)) (l := rest))
          rw [List.length_append] at hsplit
          simp only [List.length_cons]
          omega
        · rw [if_neg (by simpa using hc)] at hv
          exact Bool.noConfusion hv

/-- Each run produced by the scanner is a legal run of its cyclic class. -/
theorem splitRuns_good :
    ∀ (fuel : Nat) (s : List Nat) (d : Nat), s.length ≤ fuel →
      cycValid fuel s d = true →
      ∀ i r, (splitRuns fuel s d).get? i = some r → GoodRun ((d + i) % 3) r := by
  intro fuel
  induction fuel with
  | zero =>
    intro s d hlen _ i r hr
    simp [splitRuns] at hr
  | succ f ih =>
    intro s d hlen hv i r hr
    rcases s with _ | ⟨c, rest⟩
    · simp [splitRuns] at hr
    · rw [cycValid] at hv
      by_cases hnz : d % 3 = 1 ∧ c = 48
      · rw [if_pos hnz] at hv
        exact Bool.noConfusion hv
      · rw [if_neg hnz] at hv
        by_cases hc : classPred (d % 3) c = true
        · rw [if_pos hc] at hv
          rw [splitRuns, if_pos hc] at hr
          rcases i with _ | i
          · simp at hr
            subst hr
            exact ⟨by simpa using hc, fun hm1 hc48 => hnz ⟨hm1, hc48⟩,
              fun x hx => List.mem_takeWhile_imp hx⟩
          · have hlen' : (rest.dropWhile (classPred (d % 3))).length ≤ f := by
              have := length_dropWhile_le' (classPred (d % 3)) rest
              simp at hlen
              omega
            have := ih _ _ hlen' hv i r (by simpa using hr)
            rwa [show (d + 1 + i) % 3 = (d + (i + 1)) % 3 by omega] at this
        · rw [if_neg (by simpa using hc)] at hv
          exact Bool.noConfusion hv

theorem boundedRuns_get :
    ∀ (rs : List (List Nat)) (d : Nat), boundedRuns rs d = true →
      ∀ i r, rs.get? i = some r → decodeDim ((d + i) % 3) r ≤ (MaxIndex : Int) := by
  intro rs
  induction rs with
  | nil => intro d _ i r hr; simp at hr
  | cons a rs ih =>
    intro d hb i r hr
    rw [boundedRuns, Bool.and_eq_true] at hb
    rcases i with _ | i
    · simp at hr
      subst hr
      simpa using of_decide_eq_true hb.1
    · have := ih (d + 1) hb.2 i r (by simpa using hr)
      rwa [show (d + 1 + i) % 3 = (d + (i + 1)) % 3 by omega] at this

/-- A validated string contains no control bytes, in particular no `\r`
(13) or `\n` (10). -/
theorem noCRLF_of_cycRuns {d : Nat} {s : List Nat} (h : CycRuns d s) : noCRLF s := by
  induction h with
  | nil => exact ⟨by simp, by simp⟩
  | @cons d r rest hr _ ih =>
    have hrch : ∀ x ∈ r, classPred (d % 3) x = true := by
      rcases r with _ | ⟨c, t⟩
      · simp
      · obtain ⟨hc, _, ht⟩ := hr
        intro x hx
        rcases hx with _ | hx
        · exact hc
        · exact ht x (by assumption)
    have hnotc : ∀ x ∈ r, x ≠ 13 ∧ x ≠ 10 := by
      intro x hx
      have := hrch x hx
      have hm3 : d % 3 = 0 ∨ d % 3 = 1 ∨ d % 3 = 2 := by omega
      rcases hm3 with hm | hm | hm <;> rw [hm] at this <;>
        simp only [classPred] at this <;>
        [exact (by have := isLower_iff.1 this; omega);
         exact (by have := isDigit_iff.1 this; omega);
         exact (by have := isUpper_iff.1 this; omega)]
    constructor
    · intro hmem
      rcases List.mem_append.1 hmem with hmem | hmem
      · exact (hnotc 13 hmem).1 rfl
      · exact ih.1 hmem
    · intro hmem
      rcases List.mem_append.1 hmem with hmem | hmem
      · exact (hnotc 10 hmem).2 rfl
      · exact ih.2 hmem

/-- Uniform unfolding of `validateLoop` when the head byte belongs to the
expected class (and, for digits, is not `'0'`). -/
theorem validateLoop_cons_ok {fuel d : Nat} {c : Nat} {rest : List Nat} (hd : d < 3)
    (hc : classPred (d % 3) c = true) (hz : d % 3 = 1 → c ≠ 48) :
    validateLoop (fuel + 1) (c :: rest) d =
      if (MaxIndex : Int) < decodeDim (d % 3) (c :: rest.takeWhile (classPred (d % 3)))
      then some .indexOutOfRange
      else validateLoop fuel (rest.dropWhile (classPred (d % 3))) (d + 1) := by
  have hnd : ¬ MaxDimensions ≤ d := by simp [MaxDimensions]; omega
  have hm3 : d % 3 = 0 ∨ d % 3 = 1 ∨ d % 3 = 2 := by omega
  rcases hm3 with hm | hm | hm <;> rw [hm] at hc hz ⊢ <;>
    simp only [classPred] at hc <;>
    simp only [validateLoop, if_neg hnd, hm, decodeDim, classPred]
  · rw [if_pos hc]
  · rw [if_neg (hz rfl), if_pos hc]
  · rw [if_pos hc]

/-- A legal run whose decoded value is within `MaxIndex` has at most 2
letters or 3 digits. -/
theorem GoodRun_length_le {m : Nat} {r : List Nat} (hm : m < 3) (hg : GoodRun m r)
    (hb : decodeDim m r ≤ (MaxIndex : Int)) :
    r.length ≤ if m = 1 then 3 else 2 := by
  have hm3 : m = 0 ∨ m = 1 ∨ m = 2 := by omega
  rcases hm3 with hm' | hm' | hm'
  · subst hm'
    obtain ⟨hne, hall⟩ := GoodRun_zero_iff.1 hg
    rcases r with _ | ⟨c, t⟩
    · exact absurd rfl hne
    · have hdec : decodeLower (c :: t) = ((decAlphaVal 97 (c :: t) : Nat) : Int) - 1 :=
        decodeLower_eq (fun x hx => (hall x hx).1)

      have hle : decAlphaVal 97 (c :: t) ≤ 256 := by
        simp only [decodeDim] at hb
        rw [hdec] at hb
        simp only [MaxIndex] at hb
        omega
      have hge := decAlphaVal_ge_pow (b := 97) (t := t) (hall c (by simp)).1
      have ht1 : t.length ≤ 1 := by
        by_contra hcon
        have h2 : 2 ≤ t.length := by omega
        have h676 : (676 : Nat) ≤ 26 ^ t.length := by
          calc (676 : Nat) = 26 ^ 2 := by norm_num
            _ ≤ 26 ^ t.length := Nat.pow_le_pow_right (by norm_num) h2
        omega
      simp
      omega
  · subst hm'
    obtain ⟨c, t, rfl, h1, h2, ht⟩ := GoodRun_one_iff.1 hg
    have hdec : decodeDigit (c :: t) = ((decDigitVal (c :: t) : Nat) : Int) - 1 :=
      decodeDigit_eq (by
        intro x hx
        rcases hx with _ | hx
        · omega
        · exact (ht x (by assumption)).1)
    have hle : decDigitVal (c :: t) ≤ 256 := by
      simp only [decodeDim] at hb
      rw [hdec] at hb
      simp only [MaxIndex] at hb
      omega
    have hge := decDigitVal_ge_pow (t := t) h1
    have ht2 : t.length ≤ 2 := by
      by_contra hcon
      have h3 : 3 ≤ t.length := by omega
      have h1000 : (1000 : Nat) ≤ 10 ^ t.length := by
        calc (1000 : Nat) = 10 ^ 3 := by norm_num
          _ ≤ 10 ^ t.length := Nat.pow_le_pow_right (by norm_num) h3
      omega
    simp
    omega
  · subst hm'
    obtain ⟨hne, hall⟩ := GoodRun_two_iff.1 hg
    rcases r with _ | ⟨c, t⟩
    · exact absurd rfl hne
    · have hdec : decodeUpper (c :: t) = ((decAlphaVal 65 (c :: t) : Nat) : Int) - 1 :=
        decodeUpper_eq (fun x hx => (hall x hx).1)
      have hle : decAlphaVal 65 (c :: t) ≤ 256 := by
        simp only [decodeDim] at hb
        rw [hdec] at hb
        simp only [MaxIndex] at hb
        omega
      have hge := decAlphaVal_ge_pow (b := 65) (t := t) (hall c (by simp)).1
      have ht1 : t.length ≤ 1 := by
        by_contra hcon
        have h2 : 2 ≤ t.length := by omega
        have h676 : (676 : Nat) ≤ 26 ^ t.length := by
          calc (676 : Nat) = 26 ^ 2 := by norm_num
            _ ≤ 26 ^ t.length := Nat.pow_le_pow_right (by norm_num) h2
        omega
      simp
      omega

/-- The scanner-level characterisation of `validateLoop`: it accepts exactly
when the unbounded cyclic scan accepts, at most `3 - d` runs remain, and
every run decodes within `MaxIndex`. -/
theorem validateLoop_iff :
    ∀ (fuel : Nat) (s : List Nat) (d : Nat), s.length ≤ fuel → d ≤ 3 →
      (validateLoop fuel s d = none ↔
        (cycValid fuel s d = true ∧ (splitRuns fuel s d).length ≤ 3 - d ∧
          boundedRuns (splitRuns fuel s d) d = true)) := by
  intro fuel
  induction fuel with
  | zero =>
    intro s d hlen hd
    have : s = [] := List.eq_nil_of_length_eq_zero (by omega)
    subst this
    simp [validateLoop, cycValid, splitRuns, boundedRuns]
  | succ f ih =>
    intro s d hlen hd
    rcases s with _ | ⟨c, rest⟩
    · simp [validateLoop, cycValid, splitRuns, boundedRuns]
    · by_cases hd3 : d = 3
      · subst hd3
        constructor
        · intro h
          rw [validateLoop_tooMany le_rfl] at h
          exact Option.noConfusion h
        · rintro ⟨h1, h2, _⟩
          exfalso
          rw [cycValid] at h1
          by_cases hnz : 3 % 3 = 1 ∧ c = 48
          · rw [if_pos hnz] at h1
            exact Bool.noConfusion h1
          · rw [if_neg hnz] at h1
            by_cases hc : classPred (3 % 3) c = true
            · rw [splitRuns, if_pos hc] at h2
              simp at h2
            · rw [if_neg (by simpa using hc)] at h1
              exact Bool.noConfusion h1
      · have hdlt : d < 3 := by omega
        by_cases hnz : d % 3 = 1 ∧ c = 48
        · obtain ⟨hm1, rfl⟩ := hnz
          rw [validateLoop_leadingZero hdlt hm1]
          constructor
          · intro h
            exact absurd h (by simp)
          · rintro ⟨h1, _, _⟩
            rw [cycValid, if_pos ⟨hm1, rfl⟩] at h1
            exact Bool.noConfusion h1
        · by_cases hc : classPred (d % 3) c = true
          · have hz : d % 3 = 1 → c ≠ 48 := fun hm1 hc48 => hnz ⟨hm1, hc48⟩
            rw [validateLoop_cons_ok hdlt hc hz]
            rw [show cycValid (f + 1) (c :: rest) d
                = cycValid f (rest.dropWhile (classPred (d % 3))) (d + 1) by
              rw [cycValid, if_neg hnz, if_pos hc]]
            rw [show splitRuns (f + 1) (c :: rest) d
                = (c :: rest.takeWhile (classPred (d % 3)))
                  :: splitRuns f (rest.dropWhile (classPred (d % 3))) (d + 1) by
              rw [splitRuns, if_pos hc]]
            have hlen' : (rest.dropWhile (classPred (d % 3))).length ≤ f := by
              have := length_dropWhile_le' (classPred (d % 3)) rest
              simp at hlen
              omega
            by_cases hbound : (MaxIndex : Int)
                < decodeDim (d % 3) (c :: rest.takeWhile (classPred (d % 3)))
            · rw [if_pos hbound]
              constructor
              · intro h
                exact absurd h (by simp)
              · rintro ⟨_, _, h3⟩
                rw [boundedRuns, Bool.and_eq_true] at h3
                have := of_decide_eq_true h3.1
                omega
            · rw [if_neg hbound]
              rw [ih _ (d + 1) hlen' (by omega)]
              have hdec : decide (decodeDim (d % 3)
                  (c :: rest.takeWhile (classPred (d % 3))) ≤ (MaxIndex : Int)) = true :=
                decide_eq_true (by omega)
              rw [show boundedRuns ((c :: rest.takeWhile (classPred (d % 3)))
                  :: splitRuns f (rest.dropWhile (classPred (d % 3))) (d + 1)) d
                  = (decide (decodeDim (d % 3)
                      (c :: rest.takeWhile (classPred (d % 3))) ≤ (MaxIndex : Int)) &&
                    boundedRuns (splitRuns f (rest.dropWhile (classPred (d % 3))) (d + 1))
                      (d + 1)) from rfl]
              rw [hdec, Bool.true_and]
              constructor
              · rintro ⟨h1, h2, h3⟩
                refine ⟨h1, ?_, h3⟩
                simp only [List.length_cons]
                omega
              · rintro ⟨h1, h2, h3⟩
                refine ⟨h1, ?_, h3⟩
                simp only [List.length_cons] at h2
                omega
          · rw [validateLoop_headFail hdlt (by simpa using hc) (fun hm1 hc48 => hnz ⟨hm1, hc48⟩)]
            constructor
            · intro h
              exact absurd h (by simp)
            · rintro ⟨h1, _, _⟩
              rw [cycValid, if_neg hnz, if_neg (by simpa using hc)] at h1
              exact Bool.noConfusion h1

theorem validate_none_inv {c : Nat} {rest : List Nat} (h : validate (c :: rest) = none) :
    (c :: rest).length ≤ MaxStringLen ∧ isLower c = true ∧
    validateLoop (c :: rest).length (c :: rest) 0 = none := by
  simp only [validate] at h
  by_cases h7 : MaxStringLen < (c :: rest).length
  · rw [if_pos h7] at h
    exact Option.noConfusion h
  · rw [if_neg h7] at h
    by_cases hl : isLower c
    · rw [if_pos hl] at h
      exact ⟨by omega, hl, h⟩
    · rw [if_neg hl] at h
      exact Option.noConfusion h

/-- With at most three runs, all legal and in range, the whole string fits
in `MaxStringLen = 7` bytes (2 + 3 + 2). -/
theorem cycValid_length_le_seven {s : List Nat}
    (hcv : cycValid s.length s 0 = true)
    (hcount : (splitRuns s.length s 0).length ≤ 3)
    (hbdd : boundedRuns (splitRuns s.length s 0) 0 = true) :
    s.length ≤ 7 := by
  have hsum := splitRuns_length_sum s.length s 0 le_rfl hcv
  rcases hsp : splitRuns s.length s 0 with _ | ⟨r0, rs1⟩
  · rw [hsp] at hsum
    simp at hsum
    omega
  · have g0 := splitRuns_good s.length s 0 le_rfl hcv 0 r0 (by rw [hsp]; rfl)
    have b0 := boundedRuns_get _ 0 hbdd 0 r0 (by rw [hsp]; rfl)
    have l0 : r0.length ≤ 2 := by
      simpa using GoodRun_length_le (m := (0 + 0) % 3) (by norm_num) g0 b0
    rcases rs1 with _ | ⟨r1, rs2⟩
    · rw [hsp] at hsum
      simp at hsum
      omega
    · have g1 := splitRuns_good s.length s 0 le_rfl hcv 1 r1 (by rw [hsp]; rfl)
      have b1 := boundedRuns_get _ 0 hbdd 1 r1 (by rw [hsp]; rfl)
      have l1 : r1.length ≤ 3 := by
        simpa using GoodRun_length_le (m := (0 + 1) % 3) (by norm_num) g1 b1
      rcases rs2 with _ | ⟨r2, rs3⟩
      · rw [hsp] at hsum
        simp at hsum
        omega
      · have g2 := splitRuns_good s.length s 0 le_rfl hcv 2 r2 (by rw [hsp]; rfl)
        have b2 := boundedRuns_get _ 0 hbdd 2 r2 (by rw [hsp]; rfl)
        have l2 : r2.length ≤ 2 := by
          simpa using GoodRun_length_le (m := (0 + 2) % 3) (by norm_num) g2 b2
        rcases rs3 with _ | ⟨r3, rs4⟩
        · rw [hsp] at hsum
          simp at hsum
          omega
        · rw [hsp] at hcount
          simp at hcount

/-- **C3.** The bounded `validate` accepts a byte string exactly when the
string matches `cellRegex` as a whole, contains no `\r`/`\n`, splits into at
most 3 runs, and every run decodes to an index of at most 255;
consequently, on strings satisfying those bounds, the regex-based `Valid` of
the components variant agrees with the bounded `validate`. -/
theorem validate_iff_regex :
    (∀ s : List Nat, validate s = none ↔
      (RMatch cellRe s ∧ noCRLF s ∧
        (splitRuns s.length s 0).length ≤ 3 ∧
        boundedRuns (splitRuns s.length s 0) 0 = true)) ∧
    (∀ s : List Nat, (splitRuns s.length s 0).length ≤ 3 →
      boundedRuns (splitRuns s.length s 0) 0 = true →
      (ComponentsValid s ↔ validate s = none)) := by
  have main : ∀ s : List Nat, validate s = none ↔
      (RMatch cellRe s ∧ noCRLF s ∧
        (splitRuns s.length s 0).length ≤ 3 ∧
        boundedRuns (splitRuns s.length s 0) 0 = true) := by
    intro s
    constructor
    · intro h
      rcases s with _ | ⟨c, rest⟩
      · simp [validate] at h
      · obtain ⟨hlen7, hhead, hloop⟩ := validate_none_inv h
        obtain ⟨hcv, hcount, hbdd⟩ :=
          (validateLoop_iff (c :: rest).length (c :: rest) 0 le_rfl (by omega)).1 hloop
        have hcyc : CycRuns 0 (c :: rest) := cycRuns_of_cycValid _ _ _ le_rfl hcv
        exact ⟨rmatch_cellRe_of_cyc (by simp) hcyc, noCRLF_of_cycRuns hcyc,
          by simpa using hcount, hbdd⟩
    · rintro ⟨hre, hnc, hcount, hbdd⟩
      obtain ⟨hne, hcyc⟩ := rmatch_cellRe_imp hre
      have hcv : cycValid s.length s 0 = true := cycValid_of_cycRuns hcyc _ le_rfl
      have hlen7 : s.length ≤ 7 := cycValid_length_le_seven hcv hcount hbdd
      have hloop : validateLoop s.length s 0 = none :=
        (validateLoop_iff s.length s 0 le_rfl (by omega)).2
          ⟨hcv, by simpa using hcount, hbdd⟩
      rcases s with _ | ⟨c, rest⟩
      · exact absurd rfl hne
      · have hhead : isLower c = true := by
          have := CycRuns_head hcyc c rfl
          simpa [classPred] using this
        simp only [validate]
        rw [if_neg (by simp [MaxStringLen] at hlen7 ⊢; omega), if_pos hhead]
        exact hloop
  refine ⟨main, ?_⟩
  intro s hcount hbdd
  constructor
  · rintro ⟨hne, hnc, hre⟩
    exact (main s).2 ⟨hre, hnc, hcount, hbdd⟩
  · intro h
    obtain ⟨hre, hnc, _, _⟩ := (main s).1 h
    exact ⟨(rmatch_cellRe_imp hre).1, hnc, hre⟩

/-- Witness for C3's second conjunct at `"e4"`. -/
theorem validate_iff_regex_witness :
    ComponentsValid [101, 52] ↔ validate [101, 52] = none :=
  validate_iff_regex.2 [101, 52] (by decide) (by decide)

/-! ## The slice API (cell.go)

`Parse`/`AppendParse`/`Format` over `[]int`.  Character classes are
`unicode.IsLower`/`IsDigit`/`IsUpper` applied to `rune(s[cursor])`, i.e. to
the single byte read as a Latin-1 code point: that adds the Latin-1 letters
(µ, ß, à–ö, ø–ÿ lower; À–Ö, Ø–Þ upper) to the ASCII ranges, while digits
stay ASCII-only.  Go's `int` arithmetic in `decodeSegment` wraps at 2^63;
that wrap is modelled exactly by `wrap64`.  (`decodeSegment` iterates over
the *runes* of its segment; on ASCII segments — the only ones the theorems
below evaluate — rune and byte iteration coincide, and on non-ASCII
segments the letter branch still never returns an error, which is the only
fact about it those theorems use.) -/

inductive SliceErr where
  | errEmpty
  | errInvalidFormat
  | errInvalidChar
deriving DecidableEq, Repr

def goIsLower (c : Nat) : Bool :=
  (97 ≤ c && c ≤ 122) || c = 181 || (223 ≤ c && c ≤ 246) || (248 ≤ c && c ≤ 255)

def goIsUpper (c : Nat) : Bool :=
  (65 ≤ c && c ≤ 90) || (192 ≤ c && c ≤ 214) || (216 ≤ c && c ≤ 222)

def goIsDigit (c : Nat) : Bool := 48 ≤ c && c ≤ 57

def goClass (m : Nat) : Nat → Bool :=
  match m with
  | 0 => goIsLower
  | 1 => goIsDigit
  | _ => goIsUpper

/-- Two's-complement truncation of a 64-bit signed integer. -/
def wrap64 (x : Int) : Int := (x + 2 ^ 63) % 2 ^ 64 - 2 ^ 63

/-- `decodeSegment` (cell.go).  Mode 1 is `strconv.Atoi` (error on overflow
past `2^63 - 1`) followed by the `val < 1` guard; modes 0 and 2 are the
bijective base-26 fold (each Go `int` operation wrapping at 64 bits) and
never fail. -/
def decodeSegment (s : List Nat) (mode : Nat) : Except SliceErr Int :=
  if mode = 1 then
    if s = [] then .error .errInvalidFormat
    else if (2 ^ 63 - 1 : Nat) < decDigitVal s then .error .errInvalidFormat
    else if decDigitVal s < 1 then .error .errInvalidFormat
    else .ok ((decDigitVal s : Int) - 1)
  else
    .ok (wrap64 ((s.foldl (fun (v : Int) (c : Nat) =>
      wrap64 (v * 26 + ((c : Int) - (if mode = 2 then 65 else 97)) + 1)) 0) - 1))

/-- The `AppendParse` loop (cell.go): consume one maximal run per iteration,
append its decoded value; on any error return the accumulated `dst` as is
(the source comments: "On error, dst may contain partial data appended
before the error occurred"). -/
def sliceAppendLoop : Nat → List Int → List Nat → Nat → List Int × Option SliceErr
  | 0, dst, _, _ => (dst, none)
  | _ + 1, dst, [], _ => (dst, none)
  | fuel + 1, dst, c :: rest, dim =>
    if goClass (dim % 3) c then
      match decodeSegment (c :: rest.takeWhile (goClass (dim % 3))) (dim % 3) with
      | .error e => (dst, some e)
      | .ok v => sliceAppendLoop fuel (dst ++ [v]) (rest.dropWhile (goClass (dim % 3))) (dim + 1)
    else (dst, some .errInvalidChar)

def sliceAppendParse (dst : List Int) (s : List Nat) : List Int × Option SliceErr :=
  if s = [] then (dst, some .errEmpty)
  else sliceAppendLoop s.length dst s 0

/-- `Parse` (cell.go): on any error the returned slice is `nil`
(modelled as `none`), never the partially decoded data. -/
def sliceParse (s : List Nat) : Option (List Int) × Option SliceErr :=
  if s = [] then (none, some .errEmpty)
  else
    match sliceAppendParse [] s with
    | (_, some e) => (none, some e)
    | (dst, none) => (some dst, none)

/-- The `writeAlpha` digit loop (cell.go): emit `base + n % 26`, then
`n = n/26 - 1`, stopping when that would go negative (i.e. when `n < 26`).
Fuel `val + 1` bounds the digit count. -/
def writeAlphaAux (base : Nat) : Nat → Nat → List Nat → List Nat
  | 0, _, acc => acc
  | fuel + 1, n, acc =>
    if n < 26 then (base + n % 26) :: acc
    else writeAlphaAux base fuel (n / 26 - 1) ((base + n % 26) :: acc)

def writeAlpha (base val : Nat) : List Nat := writeAlphaAux base (val + 1) val []

/-- `strconv.Itoa` on the positive values `val + 1` produced by `Format`:
plain decimal rendering. -/
def sliceItoa (v : Nat) : List Nat := encodeDigitAux v v []

/-- The `Format` loop (cell.go): a negative index contributes no output but
the dimension position (`dim`, the `range` index) still advances. -/
def sliceFormatLoop : List Int → Nat → List Nat
  | [], _ => []
  | v :: rest, dim =>
    (if v < 0 then []
     else
       match dim % 3 with
       | 0 => writeAlpha 97 v.toNat
       | 1 => sliceItoa (v.toNat + 1)
       | _ => writeAlpha 65 v.toNat) ++ sliceFormatLoop rest (dim + 1)

def sliceFormat (indices : List Int) : List Nat :=
  if indices = [] then [] else sliceFormatLoop indices 0

/-! ## Claim C10: slice `Format` is total; skipped negatives yield
unparseable output -/

theorem writeAlphaAux_length_le {b : Nat} :
    ∀ (fuel n k : Nat) (acc : List Nat), n ≤ fuel → n < 26 ^ k → 1 ≤ k →
      (writeAlphaAux b fuel n acc).length ≤ k + acc.length := by
  intro fuel
  induction fuel with
  | zero =>
    intro n k acc hn hk h1
    simp [writeAlphaAux]
  | succ f ih =>
    intro n k acc hn hk h1
    by_cases hlt : n < 26
    · simp [writeAlphaAux, hlt]
      omega
    · rw [show writeAlphaAux b (f + 1) n acc
          = writeAlphaAux b f (n / 26 - 1) ((b + n % 26) :: acc) by
        simp [writeAlphaAux, hlt]]
      have hk2 : 2 ≤ k := by
        by_contra hcon
        have : k = 1 := by omega
        subst this
        simp at hk
        omega
      have hrec : n / 26 - 1 < 26 ^ (k - 1) := by
        have hdiv : n / 26 < 26 ^ (k - 1) := by
          apply Nat.div_lt_of_lt_mul
          calc n < 26 ^ k := hk
            _ = 26 * 26 ^ (k - 1) := by
                rw [← pow_succ']
                congr 1
                omega
        omega
      have := ih (n / 26 - 1) (k - 1) ((b + n % 26) :: acc)
        (by have : n / 26 ≤ n := Nat.div_le_self _ _; omega) hrec (by omega)
      simp at this
      omega

/-- **C10.** The slice-API `Format` never panics: its `writeAlpha` helper
writes at most 20 bytes (the stack buffer size) for every representable
`int` value, and every call returns normally.  A negative index is skipped
while the class cycle still advances, so `Format(-1, 0) = "1"` — and that
output is rejected by the slice `Parse` (`ErrInvalidChar`). -/
theorem sliceFormat_total_and_skip :
    (∀ (b v : Nat), v < 2 ^ 63 → (writeAlpha b v).length ≤ 20) ∧
    sliceFormat [-1, 0] = [49] ∧
    (sliceParse [49]).1 = none ∧
    (sliceParse [49]).2 = some SliceErr.errInvalidChar := by
  refine ⟨?_, by decide, by decide, by decide⟩
  intro b v hv
  have h26 : (2 : Nat) ^ 63 ≤ 26 ^ 14 := by decide
  have h14 := writeAlphaAux_length_le (b := b) (v + 1) v 14 [] (by omega) (by omega) (by omega)
  simp at h14
  show (writeAlphaAux b (v + 1) v []).length ≤ 20
  omega

/-- Witness for C10's universally quantified part at `v = 5`. -/
theorem sliceFormat_total_and_skip_witness :
    (writeAlpha 97 5).length ≤ 20 ∧ sliceFormat [-1, 0] = [49] :=
  ⟨sliceFormat_total_and_skip.1 97 5 (by norm_num), sliceFormat_total_and_skip.2.1⟩

/-! ## Claim C8: failure behaviour of the slice `Parse`/`AppendParse` -/

/-- **C8 counterexample.** `AppendParse` does *not* leave its destination
free of partially decoded indices: on `"a!"` it errors with
`ErrInvalidChar` yet returns `[0]` — the index decoded from `"a"` before
the error — exactly as its own documentation warns. -/
theorem sliceAppendParse_partial_counterexample :
    sliceAppendParse [] [97, 33] = ([0], some SliceErr.errInvalidChar) ∧
    ([0] : List Int) ≠ [] := by
  decide

/-- **C8 (amended).** Every detected error is returned as a typed value, and
the slice-API `Parse` returns a `nil` slice on every failing decode (never
partially decoded data); `AppendParse`, however, may leave partially decoded
indices appended to its destination when it fails (documented behaviour,
witnessed on `"a!"`). -/
theorem sliceParse_nil_on_error :
    (∀ (s : List Nat) (e : SliceErr),
      (sliceParse s).2 = some e → (sliceParse s).1 = none) ∧
    sliceAppendParse [] [97, 33] = ([0], some SliceErr.errInvalidChar) := by
  refine ⟨?_, by decide⟩
  intro s e h
  unfold sliceParse at h ⊢
  by_cases hs : s = []
  · simp [hs]
  · simp only [if_neg hs] at h ⊢
    rcases hm : sliceAppendParse [] s with ⟨dst, err⟩
    rcases err with _ | e'
    · rw [hm] at h
      exact Option.noConfusion h
    · rfl

/-- Witness for C8 at the failing input `"1"`. -/
theorem sliceParse_nil_on_error_witness : (sliceParse [49]).1 = none :=
  sliceParse_nil_on_error.1 [49] SliceErr.errInvalidChar (by decide)

/-! ## The components variant's letter codec (claim C6)

`lettersToIndex`/`indexToLetters` of the components variant: the extended
("spreadsheet-column") alphabet mapping a=0 … z=25, aa=26, …, zz=701,
aaa=702, ….  Go `int` values are modelled as `Nat`: every value handled by
these functions is non-negative (`char - 'a'` on the lowercase components
they receive, and non-negative indices). -/

/-- The source's `pow` loop (`result *= base`, `exp` times). -/
def powGo (base : Nat) : Nat → Nat
  | 0 => 1
  | e + 1 => powGo base e * base

/-- The `baseOffset` accumulation loop of `lettersToIndex`:
`for l := 1; l < length; l++ { baseOffset += pow(26, l) }`. -/
def baseOffset : Nat → Nat
  | 0 => 0
  | n + 1 => baseOffset n + (if n = 0 then 0 else powGo 26 n)

/-- The `positionInLength` accumulation of `lettersToIndex`: character `i`
contributes `(char - 'a') * pow(26, length - i - 1)`. -/
def posInLen : List Nat → Nat → Nat
  | [], _ => 0
  | c :: cs, len => (c - 97) * powGo 26 (len - 1) + posInLen cs (len - 1)

def lettersToIndex (letters : List Nat) : Nat :=
  baseOffset letters.length + posInLen letters letters.length

/-- The `findLengthAndBase` loop; each iteration grows `base` by
`pow(26, length) ≥ 26`, so fuel `index + 1` is sufficient. -/
def flbGo (index : Nat) : Nat → Nat → Nat → Nat × Nat
  | 0, len, base => (len, base)
  | fuel + 1, len, base =>
    if index < base + powGo 26 len then (len, base)
    else flbGo index fuel (len + 1) (base + powGo 26 len)

def findLengthAndBase (index : Nat) : Nat × Nat := flbGo index (index + 1) 1 0

/-- `buildLetters`: fill the result from the last position backwards with
`'a' + index % 26`, dividing `index` by 26 each step. -/
def buildLetters : Nat → Nat → List Nat
  | _, 0 => []
  | idx, len + 1 => buildLetters (idx / 26) len ++ [97 + idx % 26]

def indexToLetters (index : Nat) : List Nat :=
  buildLetters (index - (findLengthAndBase index).2) (findLengthAndBase index).1

theorem powGo_eq (b : Nat) : ∀ e, powGo b e = b ^ e := by
  intro e
  induction e with
  | zero => simp [powGo]
  | succ e ih => simp [powGo, ih, pow_succ]

theorem baseOffset_succ {n : Nat} (hn : 1 ≤ n) :
    baseOffset (n + 1) = baseOffset n + 26 ^ n := by
  rw [baseOffset, powGo_eq, if_neg (by omega)]

theorem baseOffset_mono : ∀ {a b : Nat}, a ≤ b → baseOffset a ≤ baseOffset b := by
  intro a b h
  induction b with
  | zero =>
    have : a = 0 := by omega
    subst this
    exact le_rfl
  | succ b ih =>
    by_cases hab : a = b + 1
    · subst hab
      exact le_rfl
    · have := ih (by omega)
      rw [baseOffset]
      omega

theorem flbGo_spec (index : Nat) :
    ∀ (fuel len base : Nat), 1 ≤ len → base = baseOffset len → base ≤ index →
      index + 1 - base ≤ fuel →
      (flbGo index fuel len base).2 = baseOffset (flbGo index fuel len base).1 ∧
      (flbGo index fuel len base).2 ≤ index ∧
      index < (flbGo index fuel len base).2 + 26 ^ (flbGo index fuel len base).1 ∧
      1 ≤ (flbGo index fuel len base).1 := by
  intro fuel
  induction fuel with
  | zero =>
    intro len base _ _ hbi hfuel
    omega
  | succ f ih =>
    intro len base hlen hbase hbi hfuel
    by_cases hlt : index < base + powGo 26 len
    · rw [show flbGo index (f + 1) len base = (len, base) by
        rw [flbGo, if_pos hlt]]
      rw [powGo_eq] at hlt
      exact ⟨hbase, hbi, hlt, hlen⟩
    · rw [show flbGo index (f + 1) len base
          = flbGo index f (len + 1) (base + powGo 26 len) by
        rw [flbGo, if_neg hlt]]
      have hpow1 : 1 ≤ powGo 26 len := by
        rw [powGo_eq]
        exact Nat.one_le_pow _ _ (by norm_num)
      apply ih (len + 1) (base + powGo 26 len) (by omega)
      · rw [baseOffset_succ hlen, hbase, powGo_eq]
      · omega
      · omega

theorem buildLetters_length : ∀ (len idx : Nat), (buildLetters idx len).length = len := by
  intro len
  induction len with
  | zero => intro idx; simp [buildLetters]
  | succ len ih => intro idx; simp [buildLetters, ih]

theorem buildLetters_chars :
    ∀ (len idx : Nat), ∀ c ∈ buildLetters idx len, 97 ≤ c ∧ c ≤ 122 := by
  intro len
  induction len with
  | zero => intro idx c hc; simp [buildLetters] at hc
  | succ len ih =>
    intro idx c hc
    simp only [buildLetters] at hc
    rcases List.mem_append.1 hc with hc | hc
    · exact ih _ c hc
    · have : idx % 26 < 26 := Nat.mod_lt _ (by norm_num)
      simp at hc
      omega

theorem posInLen_append_single {A : List Nat} {c : Nat} :
    posInLen (A ++ [c]) (A.length + 1) = posInLen A A.length * 26 + (c - 97) := by
  induction A with
  | nil => simp [posInLen, powGo]
  | cons x xs ih =>
    simp only [List.cons_append, posInLen, List.length_cons]
    rw [show xs.length + 1 + 1 - 1 = xs.length + 1 from by omega,
      show xs.length + 1 - 1 = xs.length from by omega]
    simp only [List.append_eq]
    rw [ih, powGo_eq, powGo_eq, pow_succ]
    ring

theorem posInLen_lt :
    ∀ (s : List Nat), (∀ c ∈ s, 97 ≤ c ∧ c ≤ 122) →
      posInLen s s.length < 26 ^ s.length := by
  intro s
  induction s using List.reverseRecOn with
  | nil => intro _; simp [posInLen]
  | append_singleton A c ih =>
    intro hchars
    have hc := hchars c (by simp)
    have hA := ih (fun x hx => hchars x (List.mem_append_left _ hx))
    rw [show (A ++ [c]).length = A.length + 1 from by simp]
    rw [posInLen_append_single, pow_succ]
    have hc26 : c - 97 < 26 := by omega
    omega

theorem posInLen_buildLetters :
    ∀ (len idx : Nat), idx < 26 ^ len →
      posInLen (buildLetters idx len) len = idx := by
  intro len
  induction len with
  | zero =>
    intro idx h
    simp at h
    simp [buildLetters, posInLen, h]
  | succ len ih =>
    intro idx h
    rw [buildLetters]
    have hlen := buildLetters_length len (idx / 26)
    rw [show len + 1 = (buildLetters (idx / 26) len).length + 1 from by rw [hlen]]
    rw [posInLen_append_single, hlen]
    have hdiv : idx / 26 < 26 ^ len := by
      apply Nat.div_lt_of_lt_mul
      calc idx < 26 ^ (len + 1) := h
        _ = 26 * 26 ^ len := by rw [pow_succ]; ring
    rw [ih _ hdiv]
    have hmod : idx % 26 < 26 := Nat.mod_lt _ (by norm_num)
    have := Nat.div_add_mod idx 26
    omega

theorem buildLetters_posInLen :
    ∀ (s : List Nat), (∀ c ∈ s, 97 ≤ c ∧ c ≤ 122) →
      buildLetters (posInLen s s.length) s.length = s := by
  intro s
  induction s using List.reverseRecOn with
  | nil => intro _; simp [posInLen, buildLetters]
  | append_singleton A c ih =>
    intro hchars
    have hc := hchars c (by simp)
    rw [show (A ++ [c]).length = A.length + 1 from by simp]
    rw [posInLen_append_single]
    rw [buildLetters]
    have hcm : c - 97 < 26 := by omega
    have hdiv : (posInLen A A.length * 26 + (c - 97)) / 26 = posInLen A A.length := by
      omega
    have hmod : (posInLen A A.length * 26 + (c - 97)) % 26 = c - 97 := by
      omega
    rw [hdiv, hmod, ih (fun x hx => hchars x (List.mem_append_left _ hx))]
    have : 97 + (c - 97) = c := by omega
    rw [this]

/-- **C6.** The components variant's letter codec is bijective base-26:
`lettersToIndex` and `indexToLetters` are mutual inverses — the round trip
on indices holds for *every* `n : Nat` (hence for all `0 ≤ n ≤ 255`), the
round trip on strings holds for every nonempty lowercase string — and the
specific values `a=0, z=25, aa=26, az=51, ba=52, zz=701, aaa=702` hold. -/
theorem lettersToIndex_indexToLetters :
    (∀ n : Nat, lettersToIndex (indexToLetters n) = n) ∧
    (∀ s : List Nat, s ≠ [] → (∀ c ∈ s, 97 ≤ c ∧ c ≤ 122) →
      indexToLetters (lettersToIndex s) = s) ∧
    lettersToIndex [97] = 0 ∧ lettersToIndex [122] = 25 ∧
    lettersToIndex [97, 97] = 26 ∧ lettersToIndex [97, 122] = 51 ∧
    lettersToIndex [98, 97] = 52 ∧ lettersToIndex [122, 122] = 701 ∧
    lettersToIndex [97, 97, 97] = 702 := by
  have hspec : ∀ n : Nat,
      (findLengthAndBase n).2 = baseOffset (findLengthAndBase n).1 ∧
      (findLengthAndBase n).2 ≤ n ∧
      n < (findLengthAndBase n).2 + 26 ^ (findLengthAndBase n).1 ∧
      1 ≤ (findLengthAndBase n).1 := by
    intro n
    exact flbGo_spec n (n + 1) 1 0 le_rfl (by simp [baseOffset]) (by omega) (by omega)
  refine ⟨?_, ?_, by decide, by decide, by decide, by decide, by decide, by decide, by decide⟩
  · intro n
    obtain ⟨hB, hBn, hlt, hL1⟩ := hspec n
    unfold indexToLetters lettersToIndex
    rw [buildLetters_length]
    rw [posInLen_buildLetters _ _ (by omega)]
    omega
  · intro s hne hchars
    have hL0 : 1 ≤ s.length := by
      rcases s with _ | _
      · exact absurd rfl hne
      · simp
    have hp : posInLen s s.length < 26 ^ s.length := posInLen_lt s hchars
    set n := lettersToIndex s with hn
    obtain ⟨hB, hBn, hlt, hL1⟩ := hspec n
    -- the found length is exactly s.length
    have hLe : (findLengthAndBase n).1 = s.length := by
      by_contra hcon
      rcases Nat.lt_or_ge (findLengthAndBase n).1 s.length with hlt' | hge
      · -- too short: n is at least baseOffset (L+1) > the upper bound found
        have h1 : baseOffset ((findLengthAndBase n).1 + 1) ≤ baseOffset s.length :=
          baseOffset_mono (by omega)
        rw [baseOffset_succ hL1] at h1
        have h2 : baseOffset s.length ≤ n := by
          rw [hn]
          unfold lettersToIndex
          omega
        omega
      · have hge' : s.length + 1 ≤ (findLengthAndBase n).1 := by omega
        have h1 : baseOffset (s.length + 1) ≤ baseOffset (findLengthAndBase n).1 :=
          baseOffset_mono hge'
        rw [baseOffset_succ hL0] at h1
        have h2 : n < baseOffset s.length + 26 ^ s.length := by
          rw [hn]
          unfold lettersToIndex
          omega
        omega
    have hBe : (findLengthAndBase n).2 = baseOffset s.length := by
      rw [hB, hLe]
    unfold indexToLetters
    rw [hLe, hBe]
    have hsub : n - baseOffset s.length = posInLen s s.length := by
      rw [hn]
      unfold lettersToIndex
      omega
    rw [hsub]
    exact buildLetters_posInLen s hchars

/-- Witness for C6's string-side round trip at `"ab"`. -/
theorem lettersToIndex_indexToLetters_witness :
    indexToLetters (lettersToIndex [97, 98]) = [97, 98] :=
  lettersToIndex_indexToLetters.2.1 [97, 98] (by decide) (by decide)

/-! ## Claim C4: leading zeros in numeric runs -/

theorem not_componentsValid_of_cycValid_false {s : List Nat}
    (h : cycValid s.length s 0 = false) : ¬ ComponentsValid s := by
  rintro ⟨hne, _, hre⟩
  obtain ⟨_, hcyc⟩ := rmatch_cellRe_imp hre
  have hcv := cycValid_of_cycRuns hcyc s.length le_rfl
  rw [h] at hcv
  exact Bool.noConfusion hcv

/-- In the bounded profile, a numeric run beginning with `'0'` at dimension 1
makes `validate` fail with `ErrLeadingZero`, for every legal in-range first
run and every continuation, provided the string is within `MaxStringLen`. -/
theorem validate_leadingZero_general
    (r0 rest : List Nat) (h0 : GoodRun 0 r0)
    (hb0 : decodeDim 0 r0 ≤ (MaxIndex : Int))
    (hlen : (r0 ++ 48 :: rest).length ≤ MaxStringLen) :
    validate (r0 ++ 48 :: rest) = some CellErr.leadingZero := by
  rcases r0 with _ | ⟨c0, t0⟩
  · exact absurd h0 (by simp [GoodRun])
  have LBIG : ((c0 :: t0) ++ 48 :: rest).length = t0.length + rest.length + 2 := by
    simp
    omega
  have hb01 : ∀ h, (48 :: rest).head? = some h → classPred (0 % 3) h = false := by
    intro h hh
    simp at hh
    subst hh
    decide
  rw [validate_eq_loop (by simp) hlen
    (fun h hh => by simp [List.cons_append] at hh; subst hh; exact h0.1)]
  rw [LBIG]
  rw [show t0.length + rest.length + 2 = (t0.length + rest.length + 1) + 1 from by omega]
  rw [validateLoop_step (by simp; omega) (by norm_num) h0 hb0 hb01]
  rw [show t0.length + rest.length + 1 = (t0.length + rest.length) + 1 from by omega]
  exact validateLoop_leadingZero (by norm_num) (by norm_num)

/-- **C4 counterexample.** The claim fails for the slice API: digit runs with
a leading zero but nonzero value are *accepted* there — `Parse("a01")`
succeeds with `[0, 0]` (`strconv.Atoi("01") = 1`), instead of failing. -/
theorem leadingZero_counterexample :
    sliceParse [97, 48, 49] = (some [0, 0], none) := by
  decide

/-- **C4 (amended).** A numeric-run leading zero is rejected by the bounded
validator (`ErrLeadingZero`, for every legal in-range first run, within
`MaxStringLen`) and by the components-variant `Valid` (its grammar requires
`[1-9][0-9]*`): `"a0"`, `"a01"`, `"a00"` all fail in both.  The slice API
rejects only zero-valued digit runs (`"a0"`, `"a00"` → `ErrInvalidFormat`)
but accepts `"a01"` (as index 0). -/
theorem leadingZero_rejection :
    (∀ (r0 rest : List Nat), GoodRun 0 r0 → decodeDim 0 r0 ≤ (MaxIndex : Int) →
      (r0 ++ 48 :: rest).length ≤ MaxStringLen →
      validate (r0 ++ 48 :: rest) = some CellErr.leadingZero) ∧
    (validate [97, 48] = some CellErr.leadingZero ∧
     validate [97, 48, 49] = some CellErr.leadingZero ∧
     validate [97, 48, 48] = some CellErr.leadingZero) ∧
    (¬ ComponentsValid [97, 48] ∧ ¬ ComponentsValid [97, 48, 49] ∧
     ¬ ComponentsValid [97, 48, 48]) ∧
    (sliceParse [97, 48] = (none, some SliceErr.errInvalidFormat) ∧
     sliceParse [97, 48, 48] = (none, some SliceErr.errInvalidFormat) ∧
     sliceParse [97, 48, 49] = (some [0, 0], none)) := by
  refine ⟨validate_leadingZero_general, by decide, ?_, by decide⟩
  exact ⟨not_componentsValid_of_cycValid_false (by decide),
    not_componentsValid_of_cycValid_false (by decide),
    not_componentsValid_of_cycValid_false (by decide)⟩

/-- Witness for C4's universally quantified part at `"a0"`. -/
theorem leadingZero_rejection_witness :
    validate ([97] ++ 48 :: []) = some CellErr.leadingZero :=
  leadingZero_rejection.1 [97] [] (by simp [GoodRun, classPred, isLower])
    (by decide) (by decide)


end Cell
